import Mathlib

/-!
Verification of the Android resource escape/unescape transcoder
(`translate/storage/aresource.py`, class `AndroidResourceUnit`).

The decoder (`unescape`) is a single left-to-right scan over a character
buffer with an `EOF` sentinel appended; the original mutates the buffer in
place (slice assignments, deletions) while moving an integer cursor both
forward and backward.  We embed the buffer as `List (Option Char)` with
`none` as the `EOF` sentinel, the cursor as an `Int` (the Python cursor
transiently reaches `-1` after a deletion at index 0 before the trailing
`i += 1`), and the in-place loop as a fuel-indexed recursion; fuel equal to
the buffer length is proved sufficient.
-/

namespace ARes

/-- Buffer element: `some c` is a character, `none` is the `EOF` sentinel. -/
abbrev Buf := List (Option Char)

/-- `WHITESPACE = ' \n\t'`, the whitespace the decoder collapses. -/
def WHITESPACE : List Char := [' ', '\n', '\t']

/-- Scanner state of one `unescape` call: `space_count`, `active_quote`,
`active_percent`, `active_escape`, `formatted`. -/
structure ScanSt where
  spaceCount : Nat
  activeQuote : Bool
  activePercent : Bool
  activeEscape : Bool
  formatted : Bool
deriving DecidableEq, Repr

/-- Initial scanner state. -/
def initSt : ScanSt := ⟨0, false, false, false, false⟩

/-- Failure outcomes of `unescape`.  `nameErr` models the unsupported-escape
branch: the original builds its message from a variable `name` that is not
in scope there, so the exception that actually escapes is a `NameError`
carrying neither a resource identifier nor the offending sequence.
`badUnicode` models `ValueError` with message `bad unicode escape sequence`. -/
inductive UErr where
  | nameErr
  | badUnicode
deriving DecidableEq, Repr

/-- Python `str.replace` for a single-character pattern: every occurrence of
`c` in `l` is replaced by `r`, left to right. -/
def pyReplace (l : List Char) (c : Char) (r : List Char) : List Char :=
  match l with
  | [] => []
  | x :: xs => if x = c then r ++ pyReplace xs c r else x :: pyReplace xs c r

/-- Python slice assignment `l[a:b] = r` (for `0 ≤ a ≤ b`; out-of-range
indices clamp, as Python does for nonnegative slice bounds). -/
def splice (l : Buf) (a b : Nat) (r : Buf) : Buf :=
  l.take a ++ r ++ l.drop b

/-- The single-quote character (code point 39). -/
def apos : Char := Char.ofNat 39

/-- Value of one hexadecimal digit, as `int(str, 16)` reads it. -/
def hexVal (c : Char) : Nat :=
  if c.isDigit then c.toNat - 48
  else if 'a' ≤ c ∧ c ≤ 'f' then c.toNat - 87
  else if 'A' ≤ c ∧ c ≤ 'F' then c.toNat - 55
  else 0

/-- Hexadecimal digit test (0-9, a-f, A-F), one building block of the
acceptance test `pyIntHex` below. -/
def isHexDig (c : Char) : Bool :=
  c.isDigit || (decide ('a' ≤ c) && decide (c ≤ 'f')) || (decide ('A' ≤ c) && decide (c ≤ 'F'))

/-- Numeric value of a hex-digit string, most significant digit first. -/
def hexToNat (l : List Char) : Nat := l.foldl (fun a c => 16 * a + hexVal c) 0

/-- Acceptance test and value for the captured unicode-escape characters, as
the source performs it: `codepoint_str.isalnum()` followed by
`int(codepoint_str, 16)`.  A base-16 `int` consumes an optional `0x` or `0X`
prefix before the hexadecimal digits, and nothing else of an alphanumeric
string (the `isalnum` check already rules out the signs and the whitespace
that `int` alone would also take).  The model reads ASCII characters; the
original would additionally map a non-ASCII decimal digit to its value, so
theorems about this branch restrict the captured characters to ASCII. -/
def pyIntHex (l : List Char) : Option Nat :=
  match l with
  | '0' :: 'x' :: rest =>
    if rest ≠ [] ∧ rest.all isHexDig then some (hexToNat rest) else none
  | '0' :: 'X' :: rest =>
    if rest ≠ [] ∧ rest.all isHexDig then some (hexToNat rest) else none
  | _ => if l ≠ [] ∧ l.all isHexDig then some (hexToNat l) else none

/-- `c is not EOF and c in WHITESPACE`. -/
def isWs (c : Option Char) : Bool :=
  match c with
  | some x => WHITESPACE.contains x
  | none => false

/-- Whitespace-collapsing section of the loop body. -/
def wsPart (text : Buf) (i : Int) (st : ScanSt) (c : Option Char) :
    Buf × Int × ScanSt :=
  if isWs c then
    (text, i, { st with spaceCount := st.spaceCount + 1 })
  else if 1 < st.spaceCount then
    if st.activeQuote = false ∨ c = none then
      (splice text (i - (st.spaceCount : Int)).toNat i.toNat [some ' '],
       i - ((st.spaceCount : Int) - 1), { st with spaceCount := 0 })
    else (text, i, { st with spaceCount := 0 })
  else if st.spaceCount = 1 then
    (splice text (i - 1).toNat i.toNat [some ' '], i, { st with spaceCount := 0 })
  else (text, i, { st with spaceCount := 0 })

/-- Quote-toggling section: an unescaped double quote flips `active_quote`
and is deleted from the buffer. -/
def quotePart (text : Buf) (i : Int) (st : ScanSt) (c : Option Char) :
    Buf × Int × ScanSt :=
  if c = some '"' ∧ st.activeEscape = false then
    (splice text i.toNat (i + 1).toNat [], i - 1, { st with activeQuote := !st.activeQuote })
  else (text, i, st)

/-- Format-specifier section: an unescaped percent sign toggles
`active_percent`; any following character sets `formatted`. -/
def percentPart (st : ScanSt) (c : Option Char) : ScanSt :=
  if c = some '%' ∧ st.activeEscape = false then
    { st with activePercent := !st.activePercent }
  else if st.activeEscape = false ∧ st.activePercent = true then
    { st with formatted := true, activePercent := false }
  else st

/-- Escape-resolution section of the loop body.  The unicode branch emits
`Char.ofNat`, which is defined on scalar values; theorems about this branch
therefore carry a scalar-value hypothesis, since for a surrogate value the
original emits a lone UTF-16 surrogate that no Lean string represents. -/
def escapePart (text : Buf) (i : Int) (st : ScanSt) (c : Option Char) :
    Except UErr (Buf × Int × ScanSt) :=
  if c = some '\\' then
    if st.activeEscape = false then .ok (text, i, { st with activeEscape := true })
    else .ok (splice text i.toNat (i + 1).toNat [], i - 1, { st with activeEscape := false })
  else if st.activeEscape = true then
    match c with
    | none => .ok (text, i, { st with activeEscape := false })
    | some ch =>
      if ch = 'n' then
        .ok (splice text (i - 1).toNat (i + 1).toNat [some '\n'], i - 1,
             { st with activeEscape := false })
      else if ch = 't' then
        .ok (splice text (i - 1).toNat (i + 1).toNat [some '\t'], i - 1,
             { st with activeEscape := false })
      else if ch = '"' ∨ ch = apos ∨ ch = '@' then
        .ok (splice text (i - 1).toNat i.toNat [], i - 1, { st with activeEscape := false })
      else if ch = 'u' then
        have maxSlice : Int := min (i + 5) ((text.length : Int) - 1)
        have cstr : List Char :=
          ((text.drop (i + 1).toNat).take (maxSlice - (i + 1)).toNat).filterMap id
        have padded : List Char := List.replicate (4 - cstr.length) '0' ++ cstr
        match pyIntHex padded with
        | some v =>
          .ok (splice text (i - 1).toNat maxSlice.toNat [some (Char.ofNat v)],
               i - 1, { st with activeEscape := false })
        | none => .error .badUnicode
      else .error .nameErr
  else .ok (text, i, st)

/-- Pipeline tail after the whitespace section. -/
def afterQuote (r : Buf × Int × ScanSt) (c : Option Char) :
    Except UErr (Buf × Int × ScanSt) :=
  Except.map (fun s => (s.1, s.2.1 + 1, s.2.2))
    (escapePart r.1 r.2.1 (percentPart r.2.2 c) c)

/-- One iteration of the scanning loop at cursor `i`, given the fetched
character `c`; the four sections run in source order and the cursor is
incremented at the end. -/
def stepC (text : Buf) (i : Int) (st : ScanSt) (c : Option Char) :
    Except UErr (Buf × Int × ScanSt) :=
  have r := wsPart text i st c
  afterQuote (quotePart r.1 r.2.1 r.2.2 c) c

/-- One iteration of the scanning loop: fetch `text[i]` and run the body. -/
def step (text : Buf) (i : Int) (st : ScanSt) : Except UErr (Buf × Int × ScanSt) :=
  stepC text i st (text.getD i.toNat none)

/-- The scanning loop `while i < len(text)`, indexed by fuel.  Fuel equal to
the buffer length is sufficient (each iteration strictly decreases
`text.length - i`); exhausted fuel returns the current buffer, a case that
the sufficiency theorem shows is never exercised by `unescapeScan`. -/
def loop : Nat → Buf → Int → ScanSt → Except UErr (Buf × ScanSt)
  | 0, text, _, st => .ok (text, st)
  | fuel + 1, text, i, st =>
    if i < (text.length : Int) then
      match step text i st with
      | .error e => .error e
      | .ok r => loop fuel r.1 r.2.1 r.2.2
    else .ok (text, st)

/-- Replacement text for a literal `<`. -/
def ltEnt : List Char := ['&', 'l', 't', ';']

/-- Replacement text for a literal `>`. -/
def gtEnt : List Char := ['&', 'g', 't', ';']

/-- The pre-scan entity substitution applied to the input text. -/
def preprocess (l : List Char) : List Char :=
  pyReplace (pyReplace l '<' ltEnt) '>' gtEnt

/-- The working buffer: preprocessed characters plus the `EOF` sentinel. -/
def mkBuf (t : String) : Buf := (preprocess t.toList).map some ++ [none]

/-- The full scan of a non-absent input: final buffer and scanner state. -/
def unescapeScan (t : String) : Except UErr (Buf × ScanSt) :=
  loop (mkBuf t).length (mkBuf t) 0 initSt

/-- `"".join(text[:-1])`: the output string, sentinel excluded. -/
def joinBuf (b : Buf) : String := String.mk (b.dropLast.filterMap id)

/-- `unescape`: remove escaping from an Android resource value.  Absent
input propagates; otherwise the scan runs and only the joined buffer is
returned (the `formatted` flag of the final scanner state is dropped). -/
def unescape (text : Option String) : Except UErr (Option String) :=
  match text with
  | none => .ok none
  | some t =>
    match unescapeScan t with
    | .error e => .error e
    | .ok r => .ok (some (joinBuf r.1))

/-- `escape`: escape a logical string for storage.  Absent input propagates;
otherwise five whole-string substitutions run in order, then a backslash is
prefixed if the result starts with `@`. -/
def escape (text : Option String) : Option String :=
  match text with
  | none => none
  | some t =>
    have l1 := pyReplace t.toList '\\' ['\\', '\\']
    have l2 := pyReplace l1 '\n' ['\\', 'n']
    have l3 := pyReplace l2 '\t' ['\\', 't']
    have l4 := pyReplace l3 apos ['\\', apos]
    have l5 := pyReplace l4 '"' ['\\', '"']
    some (String.mk (if l5.headD ' ' = '@' then '\\' :: l5 else l5))

/-- Evolution of the pair `(active_percent, formatted)` on scanning one
character (never the case that an escape is active). -/
def pfStep (pf : Bool × Bool) (ch : Char) : Bool × Bool :=
  if ch = '%' then (!pf.1, pf.2) else if pf.1 then (false, true) else pf

/-- Evolution of `(active_percent, formatted)` on scanning the sentinel. -/
def pfEnd (pf : Bool × Bool) : Bool × Bool :=
  if pf.1 then (false, true) else pf

/-- Characters the scanner copies through unchanged: a plain space that is
not preceded by another space (tracked by the flag), or any character that
is not whitespace, not a double quote and not a backslash. -/
def okChars : Bool → List Char → Bool
  | _, [] => true
  | b, c :: s =>
    if c = ' ' then !b && okChars true s
    else (!(WHITESPACE.contains c) && !(c == '"') && !(c == '\\')) && okChars false s

/-! ### The encoder as a per-character substitution -/

/-- Per-character form of the encoder substitutions, in the order the claim
lists them: backslash, newline, tab, single quote, double quote; all other
characters unchanged. -/
def escChar (c : Char) : List Char :=
  if c = '\\' then ['\\', '\\']
  else if c = '\n' then ['\\', 'n']
  else if c = '\t' then ['\\', 't']
  else if c = apos then ['\\', apos]
  else if c = '"' then ['\\', '"']
  else [c]

/-- The encoder described by the claim: substitute every character by
`escChar` (in the stated order, which the whole-string replacements realize)
and prefix a backslash when the result starts with `@`. -/
def escapeSpec (s : String) : String :=
  have l := (s.toList.map escChar).flatten
  String.mk (if l.headD ' ' = '@' then '\\' :: l else l)

/-- No two consecutive spaces anywhere in the list. -/
def noTwoSpaces : List Char → Bool
  | a :: b :: t => !(a == ' ' && b == ' ') && noTwoSpaces (b :: t)
  | _ => true

/-! ### List and cast helpers -/

theorem toNat_cast (n : Nat) : ((n : Int)).toNat = n := by omega

theorem toNat_cast_add (n k : Nat) : ((n : Int) + (k : Int)).toNat = n + k := by omega

theorem getD_len (pre : Buf) (x : Option Char) (rest : Buf) :
    (pre ++ x :: rest).getD pre.length none = x := by
  induction pre with
  | nil => rfl
  | cons a t ih => simpa [List.getD] using ih

theorem take_len (pre rest : Buf) : (pre ++ rest).take pre.length = pre := by
  induction pre with
  | nil => rfl
  | cons a t ih => simp [ih]

theorem drop_len (pre rest : Buf) : (pre ++ rest).drop pre.length = rest := by
  induction pre with
  | nil => rfl
  | cons a t ih => simp [ih]

theorem take_len_add (pre rest : Buf) (k : Nat) :
    (pre ++ rest).take (pre.length + k) = pre ++ rest.take k := by
  induction pre with
  | nil => simp
  | cons a t ih => simp [Nat.succ_add, ih]

theorem drop_len_add (pre rest : Buf) (k : Nat) :
    (pre ++ rest).drop (pre.length + k) = rest.drop k := by
  induction pre with
  | nil => simp
  | cons a t ih => simp [Nat.succ_add, ih]

theorem filterMap_id_map_some (l : List Char) : (l.map some).filterMap id = l := by
  induction l with
  | nil => rfl
  | cons a t ih => simp [ih]

theorem toList_mk (l : List Char) : (String.mk l).toList = l := rfl

/-- `joinBuf` on a buffer of characters followed by the sentinel. -/
theorem joinBuf_eq (l : List Char) : joinBuf (l.map some ++ [none]) = String.mk l := by
  unfold joinBuf
  rw [List.dropLast_concat, filterMap_id_map_some]

/-! ### Loop unfolding helpers -/

theorem loop_exit (fuel : Nat) (text : Buf) (i : Int) (st : ScanSt)
    (h : ¬ i < (text.length : Int)) : loop fuel text i st = .ok (text, st) := by
  cases fuel with
  | zero => rfl
  | succ n => simp [loop, h]

theorem loop_cons (fuel : Nat) (text : Buf) (i : Int) (st : ScanSt) (r : Buf × Int × ScanSt)
    (h : i < (text.length : Int)) (hs : step text i st = .ok r) :
    loop (fuel + 1) text i st = loop fuel r.1 r.2.1 r.2.2 := by
  simp [loop, h, hs]

theorem loop_err (fuel : Nat) (text : Buf) (i : Int) (st : ScanSt) (e : UErr)
    (h : i < (text.length : Int)) (hs : step text i st = .error e) :
    loop (fuel + 1) text i st = .error e := by
  simp [loop, h, hs]

/-! ### One-iteration lemmas, by character class -/

theorem ws_not_bs {w : Char} (h : WHITESPACE.contains w = true) : w ≠ '\\' := by
  simp [WHITESPACE, List.contains] at h
  rcases h with h | h | h <;> simp [h]

theorem ws_not_quote {w : Char} (h : WHITESPACE.contains w = true) : w ≠ '"' := by
  simp [WHITESPACE, List.contains] at h
  rcases h with h | h | h <;> simp [h]

theorem ws_not_pct {w : Char} (h : WHITESPACE.contains w = true) : w ≠ '%' := by
  simp [WHITESPACE, List.contains] at h
  rcases h with h | h | h <;> simp [h]

/-- Scanning a non-whitespace, non-quote, non-backslash character with no
pending whitespace run and no active escape: buffer and cursor position are
untouched, only the percent bookkeeping evolves. -/
theorem step_plain (pre rest : Buf) (ch : Char) (q p f : Bool)
    (hws : WHITESPACE.contains ch = false) (hq : ch ≠ '"') (hb : ch ≠ '\\') :
    step (pre ++ some ch :: rest) (pre.length : Int) ⟨0, q, p, false, f⟩ =
      .ok (pre ++ some ch :: rest, (pre.length : Int) + 1,
           ⟨0, q, (pfStep (p, f) ch).1, false, (pfStep (p, f) ch).2⟩) := by
  have hc : (pre ++ some ch :: rest).getD ((pre.length : Int)).toNat none = some ch := by
    rw [toNat_cast]; exact getD_len ..
  rw [step, hc]
  simp only [stepC, wsPart, isWs, hws, Bool.false_eq_true, if_false, Nat.lt_irrefl,
    Nat.zero_ne_one, quotePart, percentPart, escapePart, afterQuote]
  by_cases hpc : ch = '%' <;> by_cases hp : p = true <;>
    simp [hpc, hq, hb, hp, pfStep, Except.map]

/-- Scanning the sentinel with no pending whitespace run and no active
escape: only the percent bookkeeping resolves. -/
theorem step_eof (pre rest : Buf) (q p f : Bool) :
    step (pre ++ none :: rest) (pre.length : Int) ⟨0, q, p, false, f⟩ =
      .ok (pre ++ none :: rest, (pre.length : Int) + 1,
           ⟨0, q, (pfEnd (p, f)).1, false, (pfEnd (p, f)).2⟩) := by
  have hc : (pre ++ none :: rest).getD ((pre.length : Int)).toNat none = none := by
    rw [toNat_cast]; exact getD_len ..
  rw [step, hc]
  simp only [stepC, wsPart, isWs, Bool.false_eq_true, if_false, Nat.lt_irrefl,
    Nat.zero_ne_one, quotePart, percentPart, escapePart, afterQuote]
  by_cases hp : p = true <;> simp [hp, pfEnd, Except.map]

/-- Scanning a whitespace character with no active escape: the whitespace
run counter is incremented, nothing else moves. -/
theorem step_ws (pre rest : Buf) (w : Char) (k : Nat) (q p f : Bool)
    (hw : WHITESPACE.contains w = true) :
    step (pre ++ some w :: rest) (pre.length : Int) ⟨k, q, p, false, f⟩ =
      .ok (pre ++ some w :: rest, (pre.length : Int) + 1,
           ⟨k + 1, q, (pfStep (p, f) w).1, false, (pfStep (p, f) w).2⟩) := by
  have hc : (pre ++ some w :: rest).getD ((pre.length : Int)).toNat none = some w := by
    rw [toNat_cast]; exact getD_len ..
  rw [step, hc]
  simp only [stepC, wsPart, isWs, hw, if_true, quotePart, percentPart, escapePart, afterQuote]
  have h1 := ws_not_quote hw
  have h2 := ws_not_bs hw
  have h3 := ws_not_pct hw
  by_cases hp : p = true <;> simp [h1, h2, h3, hp, pfStep, Except.map]

/-- Scanning an unescaped double quote with no pending whitespace run: the
quote is removed from the buffer, `active_quote` flips, and the cursor ends
where the following character has shifted to. -/
theorem step_quote (pre rest : Buf) (q p f : Bool) :
    step (pre ++ some '"' :: rest) (pre.length : Int) ⟨0, q, p, false, f⟩ =
      .ok (pre ++ rest, (pre.length : Int),
           ⟨0, !q, (pfStep (p, f) '"').1, false, (pfStep (p, f) '"').2⟩) := by
  have hc : (pre ++ some '"' :: rest).getD ((pre.length : Int)).toNat none = some '"' := by
    rw [toNat_cast]; exact getD_len ..
  have hws : WHITESPACE.contains '"' = false := by decide
  have hsp : splice (pre ++ some '"' :: rest) pre.length (pre.length + 1) [] =
      pre ++ rest := by
    rw [splice, take_len, drop_len_add]
    simp
  rw [step, hc]
  simp only [stepC, wsPart, isWs, hws, Bool.false_eq_true, if_false, Nat.lt_irrefl,
    Nat.zero_ne_one, quotePart, percentPart, escapePart, afterQuote]
  by_cases hp : p = true <;>
    simp [hsp, hp, pfStep, Except.map, Int.sub_add_cancel]

/-- Scanning a non-whitespace character that ends a whitespace run of length
at least 2 while a quote is open: the run is left untouched (no collapsing
inside a quote), only the counter resets. -/
theorem step_run_end_inquote (pre rest : Buf) (ch : Char) (k : Nat) (p f : Bool)
    (hws : WHITESPACE.contains ch = false) (hq : ch ≠ '"') (hb : ch ≠ '\\')
    (hk : 1 < k) :
    step (pre ++ some ch :: rest) (pre.length : Int) ⟨k, true, p, false, f⟩ =
      .ok (pre ++ some ch :: rest, (pre.length : Int) + 1,
           ⟨0, true, (pfStep (p, f) ch).1, false, (pfStep (p, f) ch).2⟩) := by
  have hc : (pre ++ some ch :: rest).getD ((pre.length : Int)).toNat none = some ch := by
    rw [toNat_cast]; exact getD_len ..
  rw [step, hc]
  simp only [stepC, wsPart, isWs, hws, Bool.false_eq_true, if_false, hk, if_true,
    quotePart, percentPart, escapePart, afterQuote]
  by_cases hpc : ch = '%' <;> by_cases hp : p = true <;>
    simp [hpc, hq, hb, hp, pfStep, Except.map]

/-- Scanning the sentinel right after a whitespace run of length at least 2
(`run`): the Android parity rule fires — even a run inside an unterminated
quote is collapsed to a single space when it immediately precedes
end-of-input. -/
theorem step_collapse_eof (pre : Buf) (run : List Char) (rest : Buf) (q p f : Bool)
    (hk : 1 < run.length) :
    step (pre ++ run.map some ++ none :: rest) ((pre.length + run.length : Nat) : Int)
        ⟨run.length, q, p, false, f⟩ =
      .ok (pre ++ some ' ' :: none :: rest, ((pre.length + 2 : Nat) : Int),
           ⟨0, q, (pfEnd (p, f)).1, false, (pfEnd (p, f)).2⟩) := by
  have hc : (pre ++ run.map some ++ none :: rest).getD
      (((pre.length + run.length : Nat) : Int)).toNat none = none := by
    rw [toNat_cast]
    have := getD_len (pre ++ run.map some) none rest
    simpa [List.length_append] using this
  have hsp : splice (pre ++ (run.map some ++ none :: rest)) pre.length
      (((pre.length : Int) + (run.length : Int)).toNat) [some ' '] =
      pre ++ some ' ' :: none :: rest := by
    have h2 : (((pre.length : Int) + (run.length : Int))).toNat =
        pre.length + run.length := by omega
    rw [h2, splice, take_len, drop_len_add]
    have h3 : (run.map some ++ none :: rest).drop run.length = none :: rest := by
      have h4 := drop_len (run.map some) (none :: rest)
      simp only [List.length_map] at h4
      exact h4
    rw [h3]
    simp
  rw [step, hc]
  simp only [stepC, wsPart, isWs, Bool.false_eq_true, if_false, hk, if_true, or_true,
    quotePart, percentPart, escapePart, afterQuote]
  have hi : (pre.length : Int) + (run.length : Int) - ((run.length : Int) - 1) + 1 =
      (pre.length : Int) + 2 := by ring
  by_cases hp : p = true <;> simp [hsp, hp, pfEnd, Except.map, hi]

/-- Scanning a plain character right after a single whitespace character:
the previous buffer cell is overwritten with a plain space (a lone tab or
newline is normalized), which is the identity when that cell already holds a
space. -/
theorem step_after_single_space (pre rest : Buf) (x : Option Char) (q p f : Bool)
    (hx : isWs x = false) (hq : x ≠ some '"') (hb : x ≠ some '\\') :
    step (pre ++ some ' ' :: x :: rest) ((pre.length + 1 : Nat) : Int) ⟨1, q, p, false, f⟩ =
      .ok (pre ++ some ' ' :: x :: rest, ((pre.length + 1 : Nat) : Int) + 1,
           ⟨0, q, (match x with | some ch => (pfStep (p, f) ch).1 | none => (pfEnd (p, f)).1),
            false,
            (match x with | some ch => (pfStep (p, f) ch).2 | none => (pfEnd (p, f)).2)⟩) := by
  have hc : (pre ++ some ' ' :: x :: rest).getD
      (((pre.length + 1 : Nat) : Int)).toNat none = x := by
    rw [toNat_cast]
    have := getD_len (pre ++ [some ' ']) x rest
    simpa [List.length_append] using this
  have hsp : splice (pre ++ some ' ' :: x :: rest) pre.length (pre.length + 1)
      [some ' '] = pre ++ some ' ' :: x :: rest := by
    rw [splice, take_len, drop_len_add]
    simp
  rw [step, hc]
  simp only [stepC, wsPart, hx, Bool.false_eq_true, if_false, Nat.lt_irrefl, if_true,
    quotePart, percentPart, escapePart, afterQuote]
  cases x with
  | none => by_cases hp : p = true <;> simp [hsp, hp, pfEnd, Except.map]
  | some ch =>
    have hq2 : ch ≠ '"' := by intro h; exact hq (by rw [h])
    have hb2 : ch ≠ '\\' := by intro h; exact hb (by rw [h])
    rcases eq_or_ne ch '%' with hpc | hpc
    · subst hpc
      by_cases hp : p = true <;> simp [hsp, hq2, hb2, hp, pfStep, Except.map]
    · by_cases hp : p = true <;> simp [hsp, hpc, hq2, hb2, hp, pfStep, Except.map]

/-- Scanning a backslash with no escape active: `active_escape` turns on,
the backslash stays in the buffer for now. -/
theorem step_bs_start (pre rest : Buf) (q p f : Bool) :
    step (pre ++ some '\\' :: rest) (pre.length : Int) ⟨0, q, p, false, f⟩ =
      .ok (pre ++ some '\\' :: rest, (pre.length : Int) + 1,
           ⟨0, q, (pfStep (p, f) '\\').1, true, (pfStep (p, f) '\\').2⟩) := by
  have hc : (pre ++ some '\\' :: rest).getD ((pre.length : Int)).toNat none = some '\\' := by
    rw [toNat_cast]; exact getD_len ..
  rw [step, hc]
  simp only [stepC, wsPart, isWs, Bool.false_eq_true, if_false, Nat.lt_irrefl,
    Nat.zero_ne_one, quotePart, percentPart, escapePart, afterQuote]
  by_cases hp : p = true <;> simp [hp, pfStep, Except.map, WHITESPACE, List.contains]

/-- Resolving `\u` with the captured characters truncated at end-of-input:
the short digit string is zero-padded to four and resolved by `pyIntHex`. -/
theorem step_u_trunc (ds : List Char) (hlen : ds.length ≤ 4) :
    step (some '\\' :: some 'u' :: ds.map some ++ [none]) 1 ⟨0, false, false, true, false⟩ =
      (match pyIntHex (List.replicate (4 - ds.length) '0' ++ ds) with
       | some v => .ok ([some (Char.ofNat v), none], 1, ⟨0, false, false, false, false⟩)
       | none => .error .badUnicode) := by
  rcases ds with _ | ⟨a, _ | ⟨b, _ | ⟨c, _ | ⟨d, _ | ⟨e, tl⟩⟩⟩⟩⟩
  case nil =>
    simp [step, stepC, wsPart, quotePart, percentPart, escapePart, afterQuote, isWs,
      WHITESPACE, splice, apos, Except.map]
    rfl
  case cons.nil =>
    simp [step, stepC, wsPart, quotePart, percentPart, escapePart, afterQuote, isWs,
      WHITESPACE, splice, apos, Except.map]
    cases hpy : pyIntHex ['0', '0', '0', a] with
    | some v => simp [hpy]
    | none => simp [hpy]
  case cons.cons.nil =>
    simp [step, stepC, wsPart, quotePart, percentPart, escapePart, afterQuote, isWs,
      WHITESPACE, splice, apos, Except.map]
    cases hpy : pyIntHex ['0', '0', a, b] with
    | some v => simp [hpy]
    | none => simp [hpy]
  case cons.cons.cons.nil =>
    simp [step, stepC, wsPart, quotePart, percentPart, escapePart, afterQuote, isWs,
      WHITESPACE, splice, apos, Except.map]
    cases hpy : pyIntHex ['0', a, b, c] with
    | some v => simp [hpy]
    | none => simp [hpy]
  case cons.cons.cons.cons.nil =>
    simp [step, stepC, wsPart, quotePart, percentPart, escapePart, afterQuote, isWs,
      WHITESPACE, splice, apos, Except.map]
    cases hpy : pyIntHex [a, b, c, d] with
    | some v => simp [hpy]
    | none => simp [hpy]
  case cons.cons.cons.cons.cons =>
    simp at hlen

/-- Resolving `\u` with 4 digits available mid-string: exactly the next 4
characters are captured and the scan continues after the emitted code
point. -/
theorem step_u_four (a b c d : Char) (rest : Buf) (hr : rest ≠ []) :
    step (some '\\' :: some 'u' :: some a :: some b :: some c :: some d :: rest) 1
        ⟨0, false, false, true, false⟩ =
      (match pyIntHex [a, b, c, d] with
       | some v => .ok (some (Char.ofNat v) :: rest, 1,
                        ⟨0, false, false, false, false⟩)
       | none => .error .badUnicode) := by
  have hrl : 1 ≤ rest.length := List.length_pos.mpr hr
  simp [step, stepC, wsPart, quotePart, percentPart, escapePart, afterQuote, isWs,
    WHITESPACE, splice, apos, Except.map]
  have hm : (6 : Int) ⊓ (↑(List.length rest) + 1 + 1 + 1 + 1 + 1) = 6 := by omega
  rw [hm]
  simp
  cases hpy : pyIntHex [a, b, c, d] with
  | some v => simp [hpy]
  | none => simp [hpy]

/-! ### Multi-step scan lemmas -/

/-- Scanning a run of whitespace characters just accumulates the run
counter and advances the cursor (no buffer change, no percent state with
`active_percent` off). -/
theorem scan_ws_run : ∀ (run : List Char) (pre post : Buf) (k : Nat) (q f : Bool) (fuel : Nat),
    (∀ c ∈ run, WHITESPACE.contains c = true) →
    run.length ≤ fuel →
    loop fuel (pre ++ run.map some ++ post) (pre.length : Int) ⟨k, q, false, false, f⟩ =
      loop (fuel - run.length) (pre ++ run.map some ++ post)
        ((pre.length + run.length : Nat) : Int) ⟨k + run.length, q, false, false, f⟩ := by
  intro run
  induction run with
  | nil => intro pre post k q f fuel _ _; simp
  | cons w run' ih =>
    intro pre post k q f fuel hws hfuel
    obtain ⟨m, rfl⟩ : ∃ m, fuel = m + 1 := ⟨fuel - 1, by simp at hfuel; omega⟩
    have hw : WHITESPACE.contains w = true := hws w (by simp)
    have hpf : pfStep (false, f) w = (false, f) := by
      simp [pfStep, ws_not_pct hw]
    have hstep := step_ws pre (run'.map some ++ post) w k q false f hw
    rw [hpf] at hstep
    have hlt : (pre.length : Int) <
        ((pre ++ some w :: (run'.map some ++ post)).length : Int) := by
      simp [List.length_append]
      omega
    have hshape : pre ++ (w :: run').map some ++ post =
        pre ++ some w :: (run'.map some ++ post) := by simp
    rw [hshape]
    rw [loop_cons m _ _ _ _ hlt hstep]
    have hre : pre ++ some w :: (run'.map some ++ post) =
        (pre ++ [some w]) ++ run'.map some ++ post := by simp
    have hci : (pre.length : Int) + 1 = (((pre ++ [some w]).length : Nat) : Int) := by
      simp
    rw [hre, hci]
    have hws2 : ∀ c ∈ run', WHITESPACE.contains c = true :=
      fun c hc => hws c (by simp [hc])
    have hfuel2 : run'.length ≤ m := by
      simp only [List.length_cons] at hfuel
      omega
    rw [ih (pre ++ [some w]) post (k + 1) q f m hws2 hfuel2]
    have h1 : ((pre ++ [some w]).length + run'.length : Nat) =
        (pre.length + (w :: run').length : Nat) := by
      simp only [List.length_append, List.length_cons, List.length_nil]
      omega
    have h2 : k + 1 + run'.length = k + (w :: run').length := by
      simp only [List.length_cons]
      omega
    have h3 : m - run'.length = m + 1 - (w :: run').length := by
      simp only [List.length_cons]
      omega
    rw [h1, h2, h3]

theorem lt_len (pre : Buf) (x : Option Char) (rest : Buf) :
    (pre.length : Int) < ((pre ++ x :: rest).length : Int) := by
  simp only [List.length_append, List.length_cons]
  omega

theorem exit_after_eof (fuel : Nat) (pre : Buf) (st : ScanSt) :
    loop fuel (pre ++ [none]) ((pre.length : Int) + 1) st = .ok (pre ++ [none], st) := by
  apply loop_exit
  simp only [List.length_append, List.length_cons, List.length_nil]
  omega

theorem okChars_cons_iff (b : Bool) (c : Char) (s : List Char) :
    okChars b (c :: s) = true ↔
      (c = ' ' ∧ b = false ∧ okChars true s = true) ∨
      (c ≠ ' ' ∧ WHITESPACE.contains c = false ∧ c ≠ '"' ∧ c ≠ '\\' ∧
        okChars false s = true) := by
  by_cases hc : c = ' '
  · subst hc
    cases b <;> simp [okChars]
  · cases b <;> simp [okChars, hc] <;> tauto

/-- Scanning a string of `okChars` characters to completion leaves the
buffer untouched: every character is copied through, a lone space survives
as itself, and the sentinel resolves the final state without touching the
text. -/
theorem scan_mixed : ∀ (s : List Char) (pre : Buf) (b q p f : Bool) (fuel : Nat),
    okChars b s = true →
    (b = true → ∃ pre2, pre = pre2 ++ [some ' ']) →
    s.length + 1 ≤ fuel →
    ∃ st2, loop fuel (pre ++ s.map some ++ [none]) (pre.length : Int)
        ⟨cond b 1 0, q, p, false, f⟩ = .ok (pre ++ s.map some ++ [none], st2) := by
  intro s
  induction s with
  | nil =>
    intro pre b q p f fuel _ hsp hfuel
    obtain ⟨m, rfl⟩ : ∃ m, fuel = m + 1 := ⟨fuel - 1, by omega⟩
    have hsh : pre ++ ([] : List Char).map some ++ [none] = pre ++ none :: ([] : Buf) := by
      simp
    rw [hsh]
    cases b with
    | false =>
      exact ⟨_, by
        rw [show (cond false 1 0 : Nat) = 0 from rfl,
          loop_cons m _ _ _ _ (lt_len pre none []) (step_eof pre [] q p f)]
        exact exit_after_eof m pre _⟩
    | true =>
      obtain ⟨pre2, rfl⟩ := hsp rfl
      have hstep := step_after_single_space pre2 [] none q p f rfl (by simp) (by simp)
      have hsh2 : (pre2 ++ [some ' ']) ++ none :: ([] : Buf) =
          pre2 ++ some ' ' :: none :: ([] : Buf) := by simp
      have hci : (((pre2 ++ [some ' ']).length : Nat) : Int) =
          (((pre2.length + 1 : Nat)) : Int) := by simp
      have hlt2 : (((pre2.length + 1 : Nat)) : Int) <
          ((pre2 ++ some ' ' :: none :: ([] : Buf)).length : Int) := by
        simp only [List.length_append, List.length_cons, List.length_nil]
        omega
      rw [hsh2, hci]
      exact ⟨_, by
        rw [show (cond true 1 0 : Nat) = 1 from rfl,
          loop_cons m _ _ _ _ hlt2 hstep]
        have h5 : ((pre2.length + 1 : Nat) : Int) + 1 =
            (((pre2 ++ [some ' ']).length : Nat) : Int) + 1 := by simp
        rw [show pre2 ++ some ' ' :: none :: ([] : Buf) = (pre2 ++ [some ' ']) ++ [none] from
          by simp, h5]
        exact exit_after_eof m (pre2 ++ [some ' ']) _⟩
  | cons ch s' ih =>
    intro pre b q p f fuel hok hsp hfuel
    obtain ⟨m, rfl⟩ : ∃ m, fuel = m + 1 := ⟨fuel - 1, by omega⟩
    have hfuel2 : s'.length + 1 ≤ m := by
      simp only [List.length_cons] at hfuel
      omega
    have hsh : pre ++ (ch :: s').map some ++ [none] =
        pre ++ some ch :: (s'.map some ++ [none]) := by simp
    have hre : pre ++ some ch :: (s'.map some ++ [none]) =
        (pre ++ [some ch]) ++ s'.map some ++ [none] := by simp
    rw [hsh]
    rcases (okChars_cons_iff b ch s').mp hok with ⟨hchs, hb2, hok'⟩ |
      ⟨hch, hcont, hq2, hb2, hok'⟩
    · subst hchs
      subst hb2
      have hstep := step_ws pre (s'.map some ++ [none]) ' ' 0 q p f (by decide)
      obtain ⟨st2, hloop⟩ := ih (pre ++ [some ' ']) true q (pfStep (p, f) ' ').1
        (pfStep (p, f) ' ').2 m hok' (fun _ => ⟨pre, rfl⟩) hfuel2
      refine ⟨st2, ?_⟩
      rw [show (cond false 1 0 : Nat) = 0 from rfl,
        loop_cons m _ _ _ _ (lt_len pre (some ' ') _) hstep]
      have hci : (pre.length : Int) + 1 = (((pre ++ [some ' ']).length : Nat) : Int) := by
        simp
      rw [hre, hci]
      rw [show (cond true 1 0 : Nat) = 1 from rfl] at hloop
      exact hloop
    · cases b with
      | false =>
        have hstep := step_plain pre (s'.map some ++ [none]) ch q p f hcont hq2 hb2
        obtain ⟨st2, hloop⟩ := ih (pre ++ [some ch]) false q (pfStep (p, f) ch).1
          (pfStep (p, f) ch).2 m hok' (by simp) hfuel2
        refine ⟨st2, ?_⟩
        rw [show (cond false 1 0 : Nat) = 0 from rfl,
          loop_cons m _ _ _ _ (lt_len pre (some ch) _) hstep]
        have hci : (pre.length : Int) + 1 = (((pre ++ [some ch]).length : Nat) : Int) := by
          simp
        rw [hre, hci]
        rw [show (cond false 1 0 : Nat) = 0 from rfl] at hloop
        exact hloop
      | true =>
        obtain ⟨pre2, rfl⟩ := hsp rfl
        have hx : isWs (some ch) = false := by simpa [isWs] using hcont
        have hstep := step_after_single_space pre2 (s'.map some ++ [none]) (some ch) q p f
          hx (by simpa using hq2) (by simpa using hb2)
        obtain ⟨st2, hloop⟩ := ih ((pre2 ++ [some ' ']) ++ [some ch]) false q
          (pfStep (p, f) ch).1 (pfStep (p, f) ch).2 m hok' (by simp) hfuel2
        refine ⟨st2, ?_⟩
        have hsh2 : (pre2 ++ [some ' ']) ++ some ch :: (s'.map some ++ [none]) =
            pre2 ++ some ' ' :: some ch :: (s'.map some ++ [none]) := by simp
        have hci : (((pre2 ++ [some ' ']).length : Nat) : Int) =
            ((pre2.length + 1 : Nat) : Int) := by simp
        have hlt : ((pre2.length + 1 : Nat) : Int) <
            ((pre2 ++ some ' ' :: some ch :: (s'.map some ++ [none])).length : Int) := by
          simp only [List.length_append, List.length_cons, List.length_map]
          omega
        rw [show (cond true 1 0 : Nat) = 1 from rfl, hsh2, hci,
          loop_cons m _ _ _ _ hlt hstep]
        have hci2 : ((pre2.length + 1 : Nat) : Int) + 1 =
            ((((pre2 ++ [some ' ']) ++ [some ch]).length : Nat) : Int) := by
          simp only [List.length_append, List.length_cons, List.length_nil]
          omega
        rw [show pre2 ++ some ' ' :: some ch :: (s'.map some ++ [none]) =
            ((pre2 ++ [some ' ']) ++ [some ch]) ++ s'.map some ++ [none] from by simp, hci2]
        rw [show (cond false 1 0 : Nat) = 0 from rfl] at hloop
        exact hloop

/-! ### Facts about `pyReplace` and the entity preprocessing -/

theorem pyReplace_append (a b : List Char) (c : Char) (r : List Char) :
    pyReplace (a ++ b) c r = pyReplace a c r ++ pyReplace b c r := by
  induction a with
  | nil => rfl
  | cons x t ih => by_cases hx : x = c <;> simp [pyReplace, hx, ih]

theorem pyReplace_not_mem {l : List Char} {c : Char} (h : c ∉ l) (r : List Char) :
    pyReplace l c r = l := by
  induction l with
  | nil => rfl
  | cons x t ih =>
    have h1 : ¬ c = x ∧ c ∉ t := by simpa [List.mem_cons, not_or] using h
    simp only [pyReplace]
    rw [if_neg (fun hxc => h1.1 hxc.symm), ih h1.2]

theorem preprocess_cons (c : Char) (t : List Char) :
    preprocess (c :: t) =
      (if c = '<' then ltEnt else if c = '>' then gtEnt else [c]) ++ preprocess t := by
  unfold preprocess
  by_cases h1 : c = '<'
  · subst h1
    rw [show pyReplace ('<' :: t) '<' ltEnt = ltEnt ++ pyReplace t '<' ltEnt from by
      simp [pyReplace]]
    rw [pyReplace_append, pyReplace_not_mem (show '>' ∉ ltEnt by decide) gtEnt]
    simp
  · by_cases h2 : c = '>'
    · subst h2
      rw [show pyReplace ('>' :: t) '<' ltEnt = '>' :: pyReplace t '<' ltEnt from by
        simp [pyReplace]]
      rw [show pyReplace ('>' :: pyReplace t '<' ltEnt) '>' gtEnt =
        gtEnt ++ pyReplace (pyReplace t '<' ltEnt) '>' gtEnt from by simp [pyReplace]]
      simp
    · rw [show pyReplace (c :: t) '<' ltEnt = c :: pyReplace t '<' ltEnt from by
        simp [pyReplace, h1]]
      rw [show pyReplace (c :: pyReplace t '<' ltEnt) '>' gtEnt =
        c :: pyReplace (pyReplace t '<' ltEnt) '>' gtEnt from by simp [pyReplace, h2]]
      simp [h1, h2]

theorem preprocess_noop {l : List Char} (h : ∀ c ∈ l, c ≠ '<' ∧ c ≠ '>') :
    preprocess l = l := by
  induction l with
  | nil => rfl
  | cons c t ih =>
    rw [preprocess_cons, if_neg (h c (by simp)).1, if_neg (h c (by simp)).2,
      ih (fun d hd => h d (by simp [hd]))]
    rfl

theorem preprocess_len (l : List Char) : (preprocess l).length ≤ 4 * l.length := by
  induction l with
  | nil => simp [preprocess, pyReplace]
  | cons c t ih =>
    rw [preprocess_cons, List.length_append]
    split_ifs <;> simp only [ltEnt, gtEnt, List.length_cons, List.length_nil,
      List.length_singleton] <;> omega

theorem mkBuf_len (t : String) : (mkBuf t).length = (preprocess t.toList).length + 1 := by
  simp [mkBuf]

theorem escape_chain (l : List Char) :
    pyReplace (pyReplace (pyReplace (pyReplace (pyReplace l '\\' ['\\', '\\'])
      '\n' ['\\', 'n']) '\t' ['\\', 't']) apos ['\\', apos]) '"' ['\\', '"'] =
      (l.map escChar).flatten := by
  induction l with
  | nil => rfl
  | cons c t ih =>
    rw [show pyReplace (c :: t) '\\' ['\\', '\\'] =
        (if c = '\\' then ['\\', '\\'] else [c]) ++ pyReplace t '\\' ['\\', '\\'] from by
      split_ifs with h <;> simp [pyReplace, h]]
    rw [pyReplace_append, pyReplace_append, pyReplace_append, pyReplace_append,
      List.map_cons, List.flatten_cons, ih]
    congr 1
    by_cases h1 : c = '\\'
    · subst h1; decide
    · rw [if_neg h1]
      by_cases h2 : c = '\n'
      · subst h2; decide
      · by_cases h3 : c = '\t'
        · subst h3; decide
        · by_cases h4 : c = apos
          · subst h4; decide
          · by_cases h5 : c = '"'
            · subst h5; decide
            · simp [pyReplace, escChar, h1, h2, h3, h4, h5]

theorem mk_toList (s : String) : String.mk s.toList = s := rfl

theorem noTwoSpaces_tail {a : Char} {t : List Char} (h : noTwoSpaces (a :: t) = true) :
    noTwoSpaces t = true := by
  cases t with
  | nil => rfl
  | cons b t' =>
    rw [noTwoSpaces, Bool.and_eq_true] at h
    exact h.2

theorem okChars_of : ∀ (l : List Char) (b : Bool),
    (∀ c ∈ l, c ≠ '\\' ∧ c ≠ '"' ∧ c ≠ '\n' ∧ c ≠ '\t') →
    noTwoSpaces l = true →
    (b = true → l.head? ≠ some ' ') →
    okChars b l = true := by
  intro l
  induction l with
  | nil => intro b _ _ _; rfl
  | cons c t ih =>
    intro b hch hsp hb
    apply (okChars_cons_iff b c t).mpr
    by_cases hc : c = ' '
    · left
      refine ⟨hc, ?_, ?_⟩
      · cases b with
        | false => rfl
        | true => exact absurd (by rw [List.head?_cons, hc]) (hb rfl)
      · apply ih true (fun d hd => hch d (by simp [hd])) (noTwoSpaces_tail hsp)
        intro _
        subst hc
        cases t with
        | nil => simp
        | cons d t' =>
          rw [noTwoSpaces, Bool.and_eq_true] at hsp
          have hd : ¬ d = ' ' := by simpa using hsp.1
          simp [hd]
    · right
      have h2 := hch c (by simp)
      refine ⟨hc, ?_, h2.2.1, h2.1, ?_⟩
      · have hn : c ≠ '\n' := h2.2.2.1
        have ht : c ≠ '\t' := h2.2.2.2
        simp [WHITESPACE, List.contains, hc, hn, ht]
      · exact ih false (fun d hd => hch d (by simp [hd])) (noTwoSpaces_tail hsp) (by simp)

/-- Decoding a string of `okChars` characters that the entity preprocessing
does not touch returns the string unchanged. -/
theorem unescape_okChars (s : String)
    (hpre : preprocess s.toList = s.toList)
    (hok : okChars false s.toList = true) :
    unescape (some s) = .ok (some s) := by
  obtain ⟨st2, hloop⟩ := scan_mixed s.toList [] false false false false
    (s.toList.length + 1) hok (by simp) (by omega)
  simp only [List.nil_append, List.length_nil, Nat.cast_zero] at hloop
  have hscan : unescapeScan s = .ok (s.toList.map some ++ [none], st2) := by
    unfold unescapeScan
    rw [show mkBuf s = s.toList.map some ++ [none] from by rw [mkBuf, hpre],
      show (s.toList.map some ++ [none] : Buf).length = s.toList.length + 1 from by simp]
    exact hloop
  simp only [unescape, hscan]
  rw [joinBuf_eq, mk_toList]

/-- Encoding a string containing none of the five substituted characters and
not starting with `@` returns the string unchanged. -/
theorem escape_noop (s : String)
    (hch : ∀ c ∈ s.toList, c ≠ '\\' ∧ c ≠ '"' ∧ c ≠ apos ∧ c ≠ '\n' ∧ c ≠ '\t')
    (hat : s.toList.head? ≠ some '@') :
    escape (some s) = some s := by
  have h1 : '\\' ∉ s.toList := fun h => ((hch _ h).1 rfl)
  have h2 : '\n' ∉ s.toList := fun h => ((hch _ h).2.2.2.1 rfl)
  have h3 : '\t' ∉ s.toList := fun h => ((hch _ h).2.2.2.2 rfl)
  have h4 : apos ∉ s.toList := fun h => ((hch _ h).2.2.1 rfl)
  have h5 : '"' ∉ s.toList := fun h => ((hch _ h).2.1 rfl)
  have hguard : ¬ (s.toList.headD ' ' = '@') := by
    cases hh : s.toList with
    | nil => simp
    | cons c t =>
      simp only [List.headD_cons]
      intro hcc
      exact hat (by rw [hh, hcc]; rfl)
  simp only [escape]
  rw [pyReplace_not_mem h1, pyReplace_not_mem h2, pyReplace_not_mem h3,
    pyReplace_not_mem h4, pyReplace_not_mem h5, if_neg hguard, mk_toList]

/-! ### Composite traces for quoted whitespace runs -/

theorem pfStep_eq (f : Bool) (ch : Char) (h : ch ≠ '%') : pfStep (false, f) ch = (false, f) := by
  simp [pfStep, h]

theorem pfEnd_eq (f : Bool) : pfEnd (false, f) = (false, f) := by
  simp [pfEnd]

theorem ws_not_lt {w : Char} (h : WHITESPACE.contains w = true) : w ≠ '<' := by
  simp [WHITESPACE, List.contains] at h
  rcases h with h | h | h <;> simp [h]

theorem ws_not_gt {w : Char} (h : WHITESPACE.contains w = true) : w ≠ '>' := by
  simp [WHITESPACE, List.contains] at h
  rcases h with h | h | h <;> simp [h]

/-- Unterminated quote, trailing whitespace run at end-of-input: the run is
collapsed to one space (Android parity rule). -/
theorem unescape_unterminated_trailing (run : List Char)
    (hws : ∀ c ∈ run, WHITESPACE.contains c = true) (hk : 1 < run.length) :
    unescape (some (String.mk ('"' :: 'a' :: run))) = .ok (some "a ") := by
  have hpre : preprocess ('"' :: 'a' :: run) = '"' :: 'a' :: run := by
    apply preprocess_noop
    intro c hc
    simp only [List.mem_cons] at hc
    rcases hc with h | h | h
    · subst h; exact ⟨by decide, by decide⟩
    · subst h; exact ⟨by decide, by decide⟩
    · exact ⟨ws_not_lt (hws c h), ws_not_gt (hws c h)⟩
  have hlen : (mkBuf (String.mk ('"' :: 'a' :: run))).length = run.length + 3 := by
    rw [mkBuf, toList_mk, hpre]
    simp
  have hscan : unescapeScan (String.mk ('"' :: 'a' :: run)) =
      .ok ([some 'a', some ' ', none], ⟨0, true, false, false, false⟩) := by
    unfold unescapeScan
    rw [hlen, mkBuf, toList_mk, hpre]
    simp only [initSt]
    -- step 1: the opening quote is deleted, active_quote turns on
    have hstep1 := step_quote [] (some 'a' :: (run.map some ++ [none])) false false false
    rw [pfStep_eq false '"' (by decide)] at hstep1
    simp only [Bool.not_false] at hstep1
    have hsh1 : (('"' :: 'a' :: run).map some ++ [none] : Buf) =
        [] ++ some '"' :: (some 'a' :: (run.map some ++ [none])) := by simp
    rw [show (run.length + 3) = (run.length + 2) + 1 from by omega, hsh1,
      show (0 : Int) = ((([] : Buf).length : Nat) : Int) from by simp,
      loop_cons _ _ _ _ _ (lt_len [] (some '"') _) hstep1]
    -- step 2: the letter before the run
    have hstep2 := step_plain [] (run.map some ++ [none]) 'a' true false false
      (by decide) (by decide) (by decide)
    rw [pfStep_eq false 'a' (by decide)] at hstep2
    simp only [Bool.not_false] at hstep2
    rw [show (run.length + 2) = (run.length + 1) + 1 from by omega,
      loop_cons _ _ _ _ _ (lt_len [] (some 'a') _) hstep2]
    -- the whitespace run accumulates
    have hrun := scan_ws_run run [some 'a'] [none] 0 true false (run.length + 1)
      hws (by omega)
    simp only [List.length_singleton] at hrun
    rw [show (([] : Buf) ++ some 'a' :: (run.map some ++ [none]) : Buf) =
        [some 'a'] ++ run.map some ++ [none] from by simp,
      show ((([] : Buf).length : Nat) : Int) + 1 = ((List.length [some 'a'] : Nat) : Int)
        from by simp, show (List.length [some 'a'] : Nat) = 1 from rfl, hrun]
    -- the sentinel collapses the trailing run despite the open quote
    have hstep3 := step_collapse_eof [some 'a'] run [] true false false hk
    rw [pfEnd_eq] at hstep3
    simp only [Bool.not_false] at hstep3
    rw [show (run.length + 1 - run.length) = 1 from by omega,
      show (0 + run.length) = run.length from by omega,
      show ((1 + run.length : Nat) : Int) = (((List.length [some 'a'] + run.length : Nat)) : Int)
        from by simp,
      loop_cons _ _ _ _ _ (by
        rw [show ((List.length [some 'a'] + run.length : Nat) : Int) =
          ((1 + run.length : Nat) : Int) from by simp]
        simp only [List.length_append, List.length_cons, List.length_map,
          List.length_singleton, List.length_nil]
        omega) hstep3]
    -- done: the cursor is past the end
    apply loop_exit
    simp only [List.length_append, List.length_cons, List.length_singleton,
      List.length_nil]
    omega
  simp only [unescape, hscan]
  rfl

/-- Unterminated quote, whitespace run followed by more text: the run is NOT
collapsed (it does not immediately precede end-of-input). -/
theorem unescape_unterminated_inner (run : List Char)
    (hws : ∀ c ∈ run, WHITESPACE.contains c = true) (hk : 1 < run.length) :
    unescape (some (String.mk ('"' :: 'a' :: (run ++ ['b'])))) =
      .ok (some (String.mk ('a' :: (run ++ ['b'])))) := by
  have hpre : preprocess ('"' :: 'a' :: (run ++ ['b'])) = '"' :: 'a' :: (run ++ ['b']) := by
    apply preprocess_noop
    intro c hc
    have hc2 : c = '"' ∨ c = 'a' ∨ c ∈ run ∨ c = 'b' := by simpa using hc
    rcases hc2 with h | h | h | h
    · subst h; exact ⟨by decide, by decide⟩
    · subst h; exact ⟨by decide, by decide⟩
    · exact ⟨ws_not_lt (hws c h), ws_not_gt (hws c h)⟩
    · subst h; exact ⟨by decide, by decide⟩
  have hlen : (mkBuf (String.mk ('"' :: 'a' :: (run ++ ['b'])))).length =
      run.length + 4 := by
    rw [mkBuf, toList_mk, hpre]
    simp
  have hscan : unescapeScan (String.mk ('"' :: 'a' :: (run ++ ['b']))) =
      .ok (('a' :: (run ++ ['b'])).map some ++ [none], ⟨0, true, false, false, false⟩) := by
    unfold unescapeScan
    rw [hlen, mkBuf, toList_mk, hpre]
    simp only [initSt]
    have hstep1 := step_quote []
      (some 'a' :: (run.map some ++ [some 'b', none])) false false false
    rw [pfStep_eq false '"' (by decide)] at hstep1
    simp only [Bool.not_false] at hstep1
    rw [show (('"' :: 'a' :: (run ++ ['b'])).map some ++ [none] : Buf) =
        [] ++ some '"' :: (some 'a' :: (run.map some ++ [some 'b', none])) from by simp,
      show (run.length + 4) = (run.length + 3) + 1 from by omega,
      show (0 : Int) = ((([] : Buf).length : Nat) : Int) from by simp,
      loop_cons _ _ _ _ _ (lt_len [] (some '"') _) hstep1]
    have hstep2 := step_plain [] (run.map some ++ [some 'b', none]) 'a' true false false
      (by decide) (by decide) (by decide)
    rw [pfStep_eq false 'a' (by decide)] at hstep2
    rw [show (run.length + 3) = (run.length + 2) + 1 from by omega,
      loop_cons _ _ _ _ _ (lt_len [] (some 'a') _) hstep2]
    have hrun := scan_ws_run run [some 'a'] [some 'b', none] 0 true false (run.length + 2)
      hws (by omega)
    simp only [List.length_singleton] at hrun
    rw [show (([] : Buf) ++ some 'a' :: (run.map some ++ [some 'b', none]) : Buf) =
        [some 'a'] ++ run.map some ++ [some 'b', none] from by simp,
      show ((([] : Buf).length : Nat) : Int) + 1 = ((List.length [some 'a'] : Nat) : Int)
        from by simp, show (List.length [some 'a'] : Nat) = 1 from rfl, hrun]
    have hstep3 := step_run_end_inquote ([some 'a'] ++ run.map some) [none] 'b'
      (0 + run.length) false false (by decide) (by decide) (by decide) (by omega)
    rw [pfStep_eq false 'b' (by decide)] at hstep3
    rw [show ([some 'a'] ++ run.map some ++ [some 'b', none] : Buf) =
        ([some 'a'] ++ run.map some) ++ some 'b' :: [none] from by simp,
      show ((1 + run.length : Nat) : Int) =
        ((([some 'a'] ++ run.map some : Buf).length : Nat) : Int) from by
        simp only [List.length_append, List.length_map, List.length_singleton],
      show (run.length + 2) - run.length = 1 + 1 from by omega,
      loop_cons _ _ _ _ _ (lt_len ([some 'a'] ++ run.map some) (some 'b') _) hstep3]
    have hstep4 := step_eof (([some 'a'] ++ run.map some) ++ [some 'b']) []
      true false false
    rw [pfEnd_eq] at hstep4
    rw [show (([some 'a'] ++ run.map some) ++ some 'b' :: [none] : Buf) =
        (([some 'a'] ++ run.map some) ++ [some 'b']) ++ none :: [] from by simp,
      show ((([some 'a'] ++ run.map some : Buf).length : Nat) : Int) + 1 =
        ((((([some 'a'] ++ run.map some) ++ [some 'b'] : Buf)).length : Nat) : Int) from by
        simp only [List.length_append, List.length_cons, List.length_singleton,
          List.length_map, List.length_nil]
        omega,
      loop_cons _ _ _ _ _ (lt_len (([some 'a'] ++ run.map some) ++ [some 'b']) none []) hstep4]
    rw [show ((([some 'a'] ++ run.map some) ++ [some 'b'] : Buf)) ++ none :: [] =
        (([some 'a'] ++ run.map some) ++ [some 'b']) ++ [none] from by simp,
      exit_after_eof _ _ _]
    simp
  simp only [unescape, hscan]
  rw [joinBuf_eq]

/-- Closed quote around a whitespace run: the run is passed through
verbatim, both quotes are stripped. -/
theorem unescape_quoted_run (run : List Char)
    (hws : ∀ c ∈ run, WHITESPACE.contains c = true) (hk : 1 < run.length) :
    unescape (some (String.mk ('"' :: 'a' :: (run ++ ['b', '"'])))) =
      .ok (some (String.mk ('a' :: (run ++ ['b'])))) := by
  have hpre : preprocess ('"' :: 'a' :: (run ++ ['b', '"'])) =
      '"' :: 'a' :: (run ++ ['b', '"']) := by
    apply preprocess_noop
    intro c hc
    have hc2 : c = '"' ∨ c = 'a' ∨ c ∈ run ∨ c = 'b' ∨ c = '"' := by simpa using hc
    rcases hc2 with h | h | h | h | h
    · subst h; exact ⟨by decide, by decide⟩
    · subst h; exact ⟨by decide, by decide⟩
    · exact ⟨ws_not_lt (hws c h), ws_not_gt (hws c h)⟩
    · subst h; exact ⟨by decide, by decide⟩
    · subst h; exact ⟨by decide, by decide⟩
  have hlen : (mkBuf (String.mk ('"' :: 'a' :: (run ++ ['b', '"'])))).length =
      run.length + 5 := by
    rw [mkBuf, toList_mk, hpre]
    simp
  have hscan : unescapeScan (String.mk ('"' :: 'a' :: (run ++ ['b', '"']))) =
      .ok (('a' :: (run ++ ['b'])).map some ++ [none], ⟨0, false, false, false, false⟩) := by
    unfold unescapeScan
    rw [hlen, mkBuf, toList_mk, hpre]
    simp only [initSt]
    have hstep1 := step_quote []
      (some 'a' :: (run.map some ++ [some 'b', some '"', none])) false false false
    rw [pfStep_eq false '"' (by decide)] at hstep1
    simp only [Bool.not_false] at hstep1
    rw [show (('"' :: 'a' :: (run ++ ['b', '"'])).map some ++ [none] : Buf) =
        [] ++ some '"' :: (some 'a' :: (run.map some ++ [some 'b', some '"', none]))
        from by simp,
      show (run.length + 5) = (run.length + 4) + 1 from by omega,
      show (0 : Int) = ((([] : Buf).length : Nat) : Int) from by simp,
      loop_cons _ _ _ _ _ (lt_len [] (some '"') _) hstep1]
    have hstep2 := step_plain [] (run.map some ++ [some 'b', some '"', none]) 'a'
      true false false (by decide) (by decide) (by decide)
    rw [pfStep_eq false 'a' (by decide)] at hstep2
    rw [show (run.length + 4) = (run.length + 3) + 1 from by omega,
      loop_cons _ _ _ _ _ (lt_len [] (some 'a') _) hstep2]
    have hrun := scan_ws_run run [some 'a'] [some 'b', some '"', none] 0 true false
      (run.length + 3) hws (by omega)
    simp only [List.length_singleton] at hrun
    rw [show (([] : Buf) ++ some 'a' :: (run.map some ++ [some 'b', some '"', none]) : Buf) =
        [some 'a'] ++ run.map some ++ [some 'b', some '"', none] from by simp,
      show ((([] : Buf).length : Nat) : Int) + 1 = ((List.length [some 'a'] : Nat) : Int)
        from by simp, show (List.length [some 'a'] : Nat) = 1 from rfl, hrun]
    have hstep3 := step_run_end_inquote ([some 'a'] ++ run.map some) [some '"', none] 'b'
      (0 + run.length) false false (by decide) (by decide) (by decide) (by omega)
    rw [pfStep_eq false 'b' (by decide)] at hstep3
    rw [show ([some 'a'] ++ run.map some ++ [some 'b', some '"', none] : Buf) =
        ([some 'a'] ++ run.map some) ++ some 'b' :: [some '"', none] from by simp,
      show ((1 + run.length : Nat) : Int) =
        ((([some 'a'] ++ run.map some : Buf).length : Nat) : Int) from by
        simp only [List.length_append, List.length_map, List.length_singleton],
      show (run.length + 3) - run.length = 2 + 1 from by omega,
      loop_cons _ _ _ _ _ (lt_len ([some 'a'] ++ run.map some) (some 'b') _) hstep3]
    have hstep4 := step_quote (([some 'a'] ++ run.map some) ++ [some 'b']) [none]
      true false false
    rw [pfStep_eq false '"' (by decide)] at hstep4
    simp only [Bool.not_true] at hstep4
    rw [show (([some 'a'] ++ run.map some) ++ some 'b' :: [some '"', none] : Buf) =
        (([some 'a'] ++ run.map some) ++ [some 'b']) ++ some '"' :: [none] from by simp,
      show ((([some 'a'] ++ run.map some : Buf).length : Nat) : Int) + 1 =
        ((((([some 'a'] ++ run.map some) ++ [some 'b'] : Buf)).length : Nat) : Int) from by
        simp only [List.length_append, List.length_cons, List.length_singleton,
          List.length_map, List.length_nil]
        omega,
      loop_cons _ _ _ _ _ (lt_len (([some 'a'] ++ run.map some) ++ [some 'b'])
        (some '"') _) hstep4]
    have hstep5 := step_eof (([some 'a'] ++ run.map some) ++ [some 'b']) []
      false false false
    rw [pfEnd_eq] at hstep5
    rw [show ((([some 'a'] ++ run.map some) ++ [some 'b'] : Buf)) ++ [none] =
        (([some 'a'] ++ run.map some) ++ [some 'b']) ++ none :: [] from by simp,
      loop_cons _ _ _ _ _ (lt_len (([some 'a'] ++ run.map some) ++ [some 'b']) none [])
        hstep5]
    rw [show ((([some 'a'] ++ run.map some) ++ [some 'b'] : Buf)) ++ none :: [] =
        (([some 'a'] ++ run.map some) ++ [some 'b']) ++ [none] from by simp,
      exit_after_eof _ _ _]
    simp
  simp only [unescape, hscan]
  rw [joinBuf_eq]

/-! ### Composite traces for unicode escapes -/

theorem unescape_u_trunc_core (ds : List Char) (hlen : ds.length ≤ 4)
    (hlg : ∀ c ∈ ds, c ≠ '<' ∧ c ≠ '>') :
    unescapeScan (String.mk ('\\' :: 'u' :: ds)) =
      (match pyIntHex (List.replicate (4 - ds.length) '0' ++ ds) with
       | some v => .ok ([some (Char.ofNat v), none], ⟨0, false, false, false, false⟩)
       | none => .error .badUnicode) := by
  have hpre : preprocess ('\\' :: 'u' :: ds) = '\\' :: 'u' :: ds := by
    apply preprocess_noop
    intro c hc
    have hc2 : c = '\\' ∨ c = 'u' ∨ c ∈ ds := by simpa using hc
    rcases hc2 with h | h | h
    · subst h; exact ⟨by decide, by decide⟩
    · subst h; exact ⟨by decide, by decide⟩
    · exact hlg c h
  have hlenb : (mkBuf (String.mk ('\\' :: 'u' :: ds))).length = ds.length + 3 := by
    rw [mkBuf, toList_mk, hpre]
    simp
  unfold unescapeScan
  rw [hlenb, mkBuf, toList_mk, hpre]
  simp only [initSt]
  have hstep1 := step_bs_start [] (some 'u' :: (ds.map some ++ [none])) false false false
  rw [pfStep_eq false '\\' (by decide)] at hstep1
  rw [show (('\\' :: 'u' :: ds).map some ++ [none] : Buf) =
      [] ++ some '\\' :: (some 'u' :: (ds.map some ++ [none])) from by simp,
    show (ds.length + 3) = (ds.length + 2) + 1 from by omega,
    show (0 : Int) = ((([] : Buf).length : Nat) : Int) from by simp,
    loop_cons _ _ _ _ _ (lt_len [] (some '\\') _) hstep1]
  have hstep2 := step_u_trunc ds hlen
  rw [show ((([] : Buf).length : Nat) : Int) + 1 = (1 : Int) from by simp,
    show (([] : Buf) ++ some '\\' :: (some 'u' :: (ds.map some ++ [none])) : Buf) =
      some '\\' :: some 'u' :: ds.map some ++ [none] from by simp,
    show (ds.length + 2) = (ds.length + 1) + 1 from by omega]
  cases hpy : pyIntHex (List.replicate (4 - ds.length) '0' ++ ds) with
  | some v =>
    simp only [hpy] at hstep2
    rw [loop_cons _ _ _ _ _ (by
        simp only [List.length_cons, List.length_append, List.length_map,
          List.length_singleton, List.length_nil]
        omega) hstep2]
    have hstep3 := step_eof [some (Char.ofNat v)] [] false false false
    rw [pfEnd_eq] at hstep3
    rw [show ([some (Char.ofNat v), none] : Buf) =
        [some (Char.ofNat v)] ++ none :: [] from by simp,
      show (1 : Int) =
        (((List.length [some (Char.ofNat v)] : Nat)) : Int) from by simp,
      loop_cons _ _ _ _ _ (lt_len _ none []) hstep3]
    rw [show ([some (Char.ofNat v)] ++ none :: [] : Buf) =
        [some (Char.ofNat v)] ++ [none] from by simp,
      exit_after_eof _ _ _]
    rfl
  | none =>
    simp only [hpy] at hstep2
    exact loop_err _ _ _ _ _ (by
      simp only [List.length_cons, List.length_append, List.length_map,
        List.length_singleton, List.length_nil]
      omega) hstep2

theorem unescape_u_trunc_ok (ds : List Char) (hlen : ds.length ≤ 4)
    (hlg : ∀ c ∈ ds, c ≠ '<' ∧ c ≠ '>') (v : Nat)
    (hpy : pyIntHex (List.replicate (4 - ds.length) '0' ++ ds) = some v) :
    unescape (some (String.mk ('\\' :: 'u' :: ds))) =
      .ok (some (String.mk [Char.ofNat v])) := by
  have h := unescape_u_trunc_core ds hlen hlg
  rw [hpy] at h
  simp only [unescape, h]
  rfl

theorem unescape_u_trunc_err (ds : List Char) (hlen : ds.length ≤ 4)
    (hlg : ∀ c ∈ ds, c ≠ '<' ∧ c ≠ '>')
    (hpy : pyIntHex (List.replicate (4 - ds.length) '0' ++ ds) = none) :
    unescape (some (String.mk ('\\' :: 'u' :: ds))) = .error .badUnicode := by
  have h := unescape_u_trunc_core ds hlen hlg
  rw [hpy] at h
  simp only [unescape, h]

theorem unescape_u_four_core (a b c d : Char) (rest : List Char)
    (hlg : ∀ x ∈ ([a, b, c, d] ++ rest), x ≠ '<' ∧ x ≠ '>')
    (hok : okChars false rest = true) (v : Nat)
    (hpy : pyIntHex [a, b, c, d] = some v) :
    unescape (some (String.mk ('\\' :: 'u' :: (a :: b :: c :: d :: rest)))) =
      .ok (some (String.mk (Char.ofNat v :: rest))) := by
  have hpre : preprocess ('\\' :: 'u' :: (a :: b :: c :: d :: rest)) =
      '\\' :: 'u' :: (a :: b :: c :: d :: rest) := by
    apply preprocess_noop
    intro x hx
    have hx2 : x = '\\' ∨ x = 'u' ∨ x = a ∨ x = b ∨ x = c ∨ x = d ∨ x ∈ rest := by
      simpa using hx
    rcases hx2 with h | h | h | h | h | h | h
    · subst h; exact ⟨by decide, by decide⟩
    · subst h; exact ⟨by decide, by decide⟩
    · rw [h]; exact hlg a (by simp)
    · rw [h]; exact hlg b (by simp)
    · rw [h]; exact hlg c (by simp)
    · rw [h]; exact hlg d (by simp)
    · exact hlg x (by simp [h])
  have hlenb : (mkBuf (String.mk ('\\' :: 'u' :: (a :: b :: c :: d :: rest)))).length =
      rest.length + 7 := by
    rw [mkBuf, toList_mk, hpre]
    simp only [List.map_cons, List.length_append, List.length_cons, List.length_map,
      List.length_singleton, List.length_nil]
  obtain ⟨st2, hloop⟩ := scan_mixed rest [some (Char.ofNat v)]
    false false false false (rest.length + 5) hok (by simp) (by omega)
  rw [show (cond false 1 0 : Nat) = 0 from rfl] at hloop
  have hscan : unescapeScan (String.mk ('\\' :: 'u' :: (a :: b :: c :: d :: rest))) =
      .ok ([some (Char.ofNat v)] ++ rest.map some ++ [none], st2) := by
    unfold unescapeScan
    rw [hlenb, mkBuf, toList_mk, hpre]
    simp only [initSt]
    have hstep1 := step_bs_start []
      (some 'u' :: some a :: some b :: some c :: some d :: (rest.map some ++ [none]))
      false false false
    rw [pfStep_eq false '\\' (by decide)] at hstep1
    rw [show (('\\' :: 'u' :: (a :: b :: c :: d :: rest)).map some ++ [none] : Buf) =
        [] ++ some '\\' ::
          (some 'u' :: some a :: some b :: some c :: some d :: (rest.map some ++ [none]))
        from by simp,
      show (rest.length + 7) = (rest.length + 6) + 1 from by omega,
      show (0 : Int) = ((([] : Buf).length : Nat) : Int) from by simp,
      loop_cons _ _ _ _ _ (lt_len [] (some '\\') _) hstep1]
    have hstep2 := step_u_four a b c d (rest.map some ++ [none]) (by simp)
    simp only [hpy] at hstep2
    rw [show ((([] : Buf).length : Nat) : Int) + 1 = (1 : Int) from by simp,
      show (([] : Buf) ++ some '\\' ::
          (some 'u' :: some a :: some b :: some c :: some d :: (rest.map some ++ [none])) : Buf)
        = some '\\' :: some 'u' :: some a :: some b :: some c :: some d ::
            (rest.map some ++ [none]) from by simp,
      show (rest.length + 6) = (rest.length + 5) + 1 from by omega,
      loop_cons _ _ _ _ _ (by
        simp only [List.length_cons, List.length_append, List.length_map,
          List.length_singleton, List.length_nil]
        omega) hstep2]
    rw [show (some (Char.ofNat v) :: (rest.map some ++ [none]) : Buf) =
        [some (Char.ofNat v)] ++ rest.map some ++ [none] from by simp,
      show (1 : Int) =
        ((List.length [some (Char.ofNat v)] : Nat) : Int) from by simp]
    exact hloop
  simp only [unescape, hscan]
  rw [show ([some (Char.ofNat v)] ++ rest.map some ++ [none] : Buf) =
      (Char.ofNat v :: rest).map some ++ [none] from by simp,
    joinBuf_eq]


/-! ### Termination: every iteration strictly shrinks `length - cursor` -/

theorem splice_sentinel (core : Buf) (a b : Nat) (r : Buf) (hab : a ≤ b)
    (hb : b ≤ core.length) :
    splice (core ++ [none]) a b r = (core.take a ++ r ++ core.drop b) ++ [none] ∧
    (core.take a ++ r ++ core.drop b).length = a + r.length + (core.length - b) := by
  constructor
  · unfold splice
    rw [List.take_append_of_le_length (le_trans hab hb),
      List.drop_append_of_le_length hb]
    simp
  · simp only [List.length_append, List.length_take, List.length_drop]
    omega

theorem splice_sent_eq (core : Buf) (a b : Nat) (r : Buf) (hab : a ≤ b)
    (hb : b ≤ core.length) :
    splice (core ++ [none]) a b r = (core.take a ++ r ++ core.drop b) ++ [none] :=
  (splice_sentinel core a b r hab hb).1

theorem core_splice_len (core : Buf) (a b : Nat) (hab : a ≤ b) (hb : b ≤ core.length)
    (r : Buf) :
    (core.take a ++ r ++ core.drop b).length = a + r.length + (core.length - b) :=
  (splice_sentinel core a b r hab hb).2

theorem percentPart_fields (st : ScanSt) (c : Option Char) :
    (percentPart st c).spaceCount = st.spaceCount ∧
    (percentPart st c).activeEscape = st.activeEscape := by
  unfold percentPart
  split_ifs <;> exact ⟨rfl, rfl⟩

/-- The whitespace section: the sentinel structure of the buffer is
preserved, the cursor never moves forward, `length - cursor` is unchanged,
and the space counter becomes `count+1` on whitespace and `0` otherwise. -/
theorem wsPart_spec (core : Buf) (i : Int) (st : ScanSt) (c : Option Char)
    (h0 : 0 ≤ i) (hcount : (st.spaceCount : Int) ≤ i)
    (hlt : i < (core.length : Int) + 1) :
    ∃ core1 i1,
      wsPart (core ++ [none]) i st c =
        (core1 ++ [none], i1,
          { st with spaceCount := if isWs c then st.spaceCount + 1 else 0 }) ∧
      0 ≤ i1 ∧ i1 ≤ i ∧ (1 ≤ i → 1 ≤ i1) ∧
      (core1.length : Int) - i1 = (core.length : Int) - i ∧
      (isWs c = true → core1 = core ∧ i1 = i) := by
  by_cases hws : isWs c = true
  · refine ⟨core, i, ?_⟩
    unfold wsPart
    rw [if_pos hws, if_pos hws]
    exact ⟨rfl, h0, le_refl i, fun h => h, rfl, fun _ => ⟨rfl, rfl⟩⟩
  · have hwsf : isWs c = false := by simpa using hws
    unfold wsPart
    rw [hwsf]
    simp only [Bool.false_eq_true, if_false]
    by_cases hcnt : 1 < st.spaceCount
    · rw [if_pos hcnt]
      by_cases hqn : st.activeQuote = false ∨ c = none
      · rw [if_pos hqn]
        have hab : (i - (st.spaceCount : Int)).toNat ≤ i.toNat := by omega
        have hb : i.toNat ≤ core.length := by omega
        obtain ⟨hs1, hs2⟩ := splice_sentinel core (i - (st.spaceCount : Int)).toNat
          i.toNat [some ' '] hab hb
        refine ⟨core.take (i - (st.spaceCount : Int)).toNat ++ [some ' '] ++
          core.drop i.toNat, i - ((st.spaceCount : Int) - 1), ?_⟩
        rw [hs1]
        refine ⟨rfl, by omega, by omega, by omega, ?_, fun h => absurd h (by simp [hwsf])⟩
        rw [hs2]
        simp only [List.length_singleton]
        omega
      · rw [if_neg hqn]
        exact ⟨core, i, rfl, h0, le_refl i, fun h => h, rfl,
          fun h => absurd h (by simp [hwsf])⟩
    · rw [if_neg hcnt]
      by_cases hcnt1 : st.spaceCount = 1
      · rw [if_pos hcnt1]
        have hab : (i - 1).toNat ≤ i.toNat := by omega
        have hb : i.toNat ≤ core.length := by omega
        obtain ⟨hs1, hs2⟩ := splice_sentinel core (i - 1).toNat i.toNat [some ' '] hab hb
        refine ⟨core.take (i - 1).toNat ++ [some ' '] ++ core.drop i.toNat, i, ?_⟩
        rw [hs1]
        refine ⟨rfl, h0, le_refl i, fun h => h, ?_, fun h => absurd h (by simp [hwsf])⟩
        rw [hs2]
        simp only [List.length_singleton]
        omega
      · rw [if_neg hcnt1]
        exact ⟨core, i, rfl, h0, le_refl i, fun h => h, rfl,
          fun h => absurd h (by simp [hwsf])⟩

/-- One successful iteration of the loop preserves the sentinel structure,
keeps the invariants (nonnegative cursor, space count bounded by the cursor,
cursor at least 1 while an escape is active), and strictly decreases
`length - cursor`. -/
theorem step_dec (core : Buf) (i : Int) (st : ScanSt) (out : Buf × Int × ScanSt)
    (h0 : 0 ≤ i) (hcount : (st.spaceCount : Int) ≤ i)
    (hesc : st.activeEscape = true → 1 ≤ i)
    (hlt : i < (core.length : Int) + 1)
    (hstep : step (core ++ [none]) i st = .ok out) :
    ∃ core2, out.1 = core2 ++ [none] ∧ 0 ≤ out.2.1 ∧
      ((out.2.2.spaceCount : Int) ≤ out.2.1) ∧
      (out.2.2.activeEscape = true → 1 ≤ out.2.1) ∧
      0 ≤ (core2.length : Int) + 1 - out.2.1 ∧
      (core2.length : Int) + 1 - out.2.1 < (core.length : Int) + 1 - i := by
  obtain ⟨core1, i1, hws, hi10, hi1le, hi11, hmeas1, hwseq⟩ :=
    wsPart_spec core i st ((core ++ [none]).getD i.toNat none) h0 hcount hlt
  simp only [step, stepC] at hstep
  rw [hws] at hstep
  dsimp only at hstep
  rcases hcval : (core ++ [none]).getD i.toNat none with _ | ch
  · -- the sentinel (or a stray sentinel mid-buffer): no buffer change
    rw [hcval] at hstep
    simp only [isWs, Bool.false_eq_true, if_false] at hstep
    simp only [quotePart] at hstep
    rw [if_neg (by simp)] at hstep
    simp only [afterQuote, escapePart] at hstep
    rw [if_neg (show ¬ ((none : Option Char) = some '\\') from by simp)] at hstep
    obtain ⟨hp1, hp2⟩ := percentPart_fields
      { st with spaceCount := 0 } (none : Option Char)
    by_cases hE : (percentPart { st with spaceCount := 0 } (none : Option Char)).activeEscape
      = true
    · rw [if_pos hE] at hstep
      simp only [Except.map] at hstep
      rw [Except.ok.injEq] at hstep
      subst hstep
      dsimp only
      rw [hp1]
      dsimp only
      exact ⟨core1, rfl, by omega, by omega, by simp, by omega, by omega⟩
    · rw [if_neg hE] at hstep
      simp only [Except.map] at hstep
      rw [Except.ok.injEq] at hstep
      subst hstep
      dsimp only
      refine ⟨core1, rfl, by omega, ?_, fun hcon => absurd hcon hE, by omega, by omega⟩
      rw [hp1]
      dsimp only
      omega
  · rw [hcval] at hstep
    rw [hcval] at hwseq
    have hilt : i < (core.length : Int) := by
      by_contra hcon
      have hieq : i.toNat = core.length := by omega
      rw [hieq, show (core ++ [none] : Buf) = core ++ none :: [] from rfl,
        getD_len] at hcval
      exact Option.noConfusion hcval
    have hi1lt : i1 < (core1.length : Int) := by omega
    by_cases hwsc : isWs (some ch) = true
    · obtain ⟨hceq, hieq⟩ := hwseq hwsc
      subst hceq
      subst hieq
      rw [if_pos hwsc] at hstep
      have hchws : WHITESPACE.contains ch = true := by simpa [isWs] using hwsc
      simp only [quotePart] at hstep
      rw [if_neg (by simp [ws_not_quote hchws])] at hstep
      simp only [afterQuote, escapePart] at hstep
      rw [if_neg (by simp [ws_not_bs hchws])] at hstep
      obtain ⟨hp1, hp2⟩ := percentPart_fields
        { st with spaceCount := st.spaceCount + 1 } (some ch)
      by_cases hE : (percentPart { st with spaceCount := st.spaceCount + 1 }
          (some ch)).activeEscape = true
      · rw [if_pos hE] at hstep
        have hch3 : ch = ' ' ∨ ch = '\n' ∨ ch = '\t' := by
          simpa [WHITESPACE, List.contains] using hchws
        rcases hch3 with rfl | rfl | rfl <;> simp [Except.map, apos] at hstep
      · rw [if_neg hE] at hstep
        simp only [Except.map] at hstep
        rw [Except.ok.injEq] at hstep
        subst hstep
        dsimp only
        refine ⟨core1, rfl, by omega, ?_, fun hcon => absurd hcon hE, by omega, by omega⟩
        rw [hp1]
        dsimp only
        omega
    · have hwsf2 : isWs (some ch) = false := by simpa using hwsc
      rw [hwsf2] at hstep
      simp only [Bool.false_eq_true, if_false] at hstep
      simp only [quotePart] at hstep
      by_cases hq : ch = '"' ∧ st.activeEscape = false
      · obtain ⟨rfl, hescf⟩ := hq
        rw [if_pos ⟨rfl, hescf⟩] at hstep
        obtain ⟨hs1, hs2⟩ := splice_sentinel core1 i1.toNat (i1 + 1).toNat []
          (by omega) (by omega)
        rw [hs1] at hstep
        simp only [afterQuote, escapePart] at hstep
        rw [if_neg (show ¬ ((some '"' : Option Char) = some '\\') from by simp)] at hstep
        obtain ⟨hp1, hp2⟩ := percentPart_fields
          { st with spaceCount := 0, activeQuote := !st.activeQuote } (some '"')
        rw [if_neg (by rw [hp2]; simp [hescf])] at hstep
        simp only [Except.map] at hstep
        rw [Except.ok.injEq] at hstep
        subst hstep
        dsimp only
        refine ⟨_, rfl, by omega, ?_, ?_, ?_, ?_⟩
        · rw [hp1]
          dsimp only
          omega
        · rw [hp2]
          dsimp only
          intro hcon
          rw [hcon] at hescf
          exact Bool.noConfusion hescf
        · simp only [List.length_nil] at hs2
          omega
        · simp only [List.length_nil] at hs2
          omega
      · rw [if_neg (by simpa using hq)] at hstep
        simp only [afterQuote, escapePart] at hstep
        obtain ⟨hp1, hp2⟩ := percentPart_fields { st with spaceCount := 0 } (some ch)
        by_cases hbs : ch = '\\'
        · subst hbs
          rw [if_pos rfl] at hstep
          by_cases hEf : st.activeEscape = false
          · rw [if_pos (by rw [hp2]; exact hEf)] at hstep
            simp only [Except.map] at hstep
            rw [Except.ok.injEq] at hstep
            subst hstep
            dsimp only
            refine ⟨core1, rfl, by omega, ?_, fun _ => by omega, by omega, by omega⟩
            rw [hp1]
            dsimp only
            omega
          · rw [if_neg (by rw [hp2]; simpa using hEf)] at hstep
            obtain ⟨hs1, hs2⟩ := splice_sentinel core1 i1.toNat (i1 + 1).toNat []
              (by omega) (by omega)
            rw [hs1] at hstep
            simp only [Except.map] at hstep
            rw [Except.ok.injEq] at hstep
            subst hstep
            dsimp only
            refine ⟨_, rfl, by omega, ?_, ?_, ?_, ?_⟩
            · rw [hp1]
              dsimp only
              omega
            · dsimp only
              intro hcon
              exact Bool.noConfusion hcon
            · simp only [List.length_nil] at hs2
              omega
            · simp only [List.length_nil] at hs2
              omega
        · rw [if_neg (by simp [hbs])] at hstep
          by_cases hEf : st.activeEscape = false
          · rw [if_neg (by rw [hp2]; simp [hEf])] at hstep
            simp only [Except.map] at hstep
            rw [Except.ok.injEq] at hstep
            subst hstep
            dsimp only
            refine ⟨core1, rfl, by omega, ?_, ?_, by omega, by omega⟩
            · rw [hp1]
              dsimp only
              omega
            · rw [hp2]
              dsimp only
              intro hcon
              rw [hcon] at hEf
              exact Bool.noConfusion hEf
          · have hEt : st.activeEscape = true := by
              revert hEf
              cases st.activeEscape <;> simp
            rw [if_pos (by rw [hp2]; exact hEt)] at hstep
            have hi1ge : 1 ≤ i1 := hi11 (hesc hEt)
            by_cases hn : ch = 'n'
            · subst hn
              rw [if_pos rfl] at hstep
              rw [splice_sent_eq core1 (i1 - 1).toNat (i1 + 1).toNat _
                (by omega) (by omega)] at hstep
              simp only [Except.map] at hstep
              rw [Except.ok.injEq] at hstep
              subst hstep
              dsimp only
              have hlen3 := core_splice_len core1 (i1 - 1).toNat (i1 + 1).toNat
                (by omega) (by omega)
              refine ⟨_, rfl, by omega, ?_, ?_, ?_, ?_⟩
              · rw [hp1]
                dsimp only
                omega
              · dsimp only
                intro hcon
                exact Bool.noConfusion hcon
              · rw [hlen3]
                simp only [List.length_singleton]
                omega
              · rw [hlen3]
                simp only [List.length_singleton]
                omega
            · rw [if_neg hn] at hstep
              by_cases ht2 : ch = 't'
              · subst ht2
                rw [if_pos rfl] at hstep
                rw [splice_sent_eq core1 (i1 - 1).toNat (i1 + 1).toNat _
                  (by omega) (by omega)] at hstep
                simp only [Except.map] at hstep
                rw [Except.ok.injEq] at hstep
                subst hstep
                dsimp only
                have hlen3 := core_splice_len core1 (i1 - 1).toNat (i1 + 1).toNat
                  (by omega) (by omega)
                refine ⟨_, rfl, by omega, ?_, ?_, ?_, ?_⟩
                · rw [hp1]
                  dsimp only
                  omega
                · dsimp only
                  intro hcon
                  exact Bool.noConfusion hcon
                · rw [hlen3]
                  simp only [List.length_singleton]
                  omega
                · rw [hlen3]
                  simp only [List.length_singleton]
                  omega
              · rw [if_neg ht2] at hstep
                by_cases hqs : ch = '"' ∨ ch = apos ∨ ch = '@'
                · rw [if_pos hqs] at hstep
                  rw [splice_sent_eq core1 (i1 - 1).toNat i1.toNat _
                    (by omega) (by omega)] at hstep
                  simp only [Except.map] at hstep
                  rw [Except.ok.injEq] at hstep
                  subst hstep
                  dsimp only
                  have hlen3 := core_splice_len core1 (i1 - 1).toNat i1.toNat
                    (by omega) (by omega)
                  refine ⟨_, rfl, by omega, ?_, ?_, ?_, ?_⟩
                  · rw [hp1]
                    dsimp only
                    omega
                  · dsimp only
                    intro hcon
                    exact Bool.noConfusion hcon
                  · rw [hlen3]
                    simp only [List.length_nil]
                    omega
                  · rw [hlen3]
                    simp only [List.length_nil]
                    omega
                · rw [if_neg hqs] at hstep
                  by_cases hu : ch = 'u'
                  · subst hu
                    rw [if_pos rfl] at hstep
                    generalize hM : min (i1 + 5)
                      (((core1 ++ [none] : Buf).length : Int) - 1) = M at hstep
                    have hlen2 : ((core1 ++ [none] : Buf)).length = core1.length + 1 := by
                      simp
                    rw [hlen2] at hM
                    have hMb : M.toNat ≤ core1.length := by omega
                    have hMa : i1.toNat + 1 ≤ M.toNat := by omega
                    split at hstep
                    · rw [splice_sent_eq core1 (i1 - 1).toNat M.toNat _
                        (by omega) hMb] at hstep
                      simp only [Except.map] at hstep
                      rw [Except.ok.injEq] at hstep
                      subst hstep
                      dsimp only
                      have hlen3 := core_splice_len core1 (i1 - 1).toNat M.toNat
                        (by omega) hMb
                      refine ⟨_, rfl, by omega, ?_, ?_, ?_, ?_⟩
                      · rw [hp1]
                        dsimp only
                        omega
                      · dsimp only
                        intro hcon
                        exact Bool.noConfusion hcon
                      · rw [hlen3]
                        simp only [List.length_singleton]
                        omega
                      · rw [hlen3]
                        simp only [List.length_singleton]
                        omega
                    · simp [Except.map] at hstep
                  · rw [if_neg hu] at hstep
                    simp [Except.map] at hstep

/-- Fuel irrelevance: once the fuel covers the decreasing measure
`length + 1 - cursor`, the value of `loop` does not depend on the fuel. -/
theorem loop_stable (n : Nat) : ∀ (core : Buf) (i : Int) (st : ScanSt) (fuel : Nat),
    0 ≤ i → (st.spaceCount : Int) ≤ i → (st.activeEscape = true → 1 ≤ i) →
    (core.length : Int) + 1 - i ≤ (n : Int) → n ≤ fuel →
    loop fuel (core ++ [none]) i st = loop n (core ++ [none]) i st := by
  induction n with
  | zero =>
    intro core i st fuel h0 hcount hesc hm hf
    have hge : ¬ i < ((core ++ [none] : Buf).length : Int) := by
      simp only [List.length_append, List.length_cons, List.length_nil]
      omega
    rw [loop_exit fuel _ _ _ hge, loop_exit 0 _ _ _ hge]
  | succ n ih =>
    intro core i st fuel h0 hcount hesc hm hf
    by_cases hlt : i < ((core ++ [none] : Buf).length : Int)
    · have hlt2 : i < (core.length : Int) + 1 := by
        simp only [List.length_append, List.length_cons, List.length_nil] at hlt
        omega
      obtain ⟨m, rfl⟩ : ∃ m, fuel = m + 1 := ⟨fuel - 1, by omega⟩
      cases hstep : step (core ++ [none]) i st with
      | error e =>
        rw [loop_err m _ _ _ e hlt hstep, loop_err n _ _ _ e hlt hstep]
      | ok r =>
        rw [loop_cons m _ _ _ r hlt hstep, loop_cons n _ _ _ r hlt hstep]
        obtain ⟨core2, hb, h0a, hca, hea, hnn, hdec⟩ :=
          step_dec core i st r h0 hcount hesc hlt2 hstep
        rw [hb]
        exact ih core2 r.2.1 r.2.2 m h0a hca hea (by omega) (by omega)
    · rw [loop_exit fuel _ _ _ hlt, loop_exit (n + 1) _ _ _ hlt]

/-- Any fuel at least the buffer length computes the full scan. -/
theorem unescapeScan_fuel (t : String) (fuel : Nat) (h : (mkBuf t).length ≤ fuel) :
    loop fuel (mkBuf t) 0 initSt = unescapeScan t := by
  have hm : ((((preprocess t.toList).map some : Buf)).length : Int) + 1 - 0 ≤
      ((mkBuf t).length : Int) := by
    rw [mkBuf_len]
    simp
  exact loop_stable (mkBuf t).length ((preprocess t.toList).map some) 0 initSt fuel
    le_rfl (by simp [initSt]) (fun hc => by simp [initSt] at hc) hm h

/-- The working buffer is at most four times the input length plus the
sentinel, so the fuel bound of the full scan is linear in the input. -/
theorem mkBuf_len_le (t : String) : (mkBuf t).length ≤ 4 * t.length + 1 := by
  rw [mkBuf_len]
  have := preprocess_len t.toList
  have hlen : t.toList.length = t.length := rfl
  omega

example : unescape (some "a\tb") = .ok (some "a b") := rfl
example : unescape (some "a   b") = .ok (some "a b") := rfl
example : unescape (some "\"a   b\"") = .ok (some "a   b") := rfl
example : unescape (some "a\\nb") = .ok (some "a\nb") := rfl
example : unescape (some "\\u0041") = .ok (some "A") := rfl
example : unescape (some "\\u41") = .ok (some "A") := rfl
example : unescape (some "a\\qb") = .error .nameErr := rfl
example : unescape (some "\\u00zz") = .error .badUnicode := rfl
example : escape (some "@mipmap/icon") = some "\\@mipmap/icon" := rfl
example : escape (some "Line1\nLine2") = some "Line1\\nLine2" := rfl


/-! ### The claims -/

/-- Claim C1: the spec says an unsupported escape raises an error naming the
caller-supplied context identifier and the offending two-character sequence.
In the source the error-message construction references a variable that is
not in scope anywhere in the function (and the decoder takes no context
identifier parameter at all), so reaching this branch raises a NameError
instead of the documented error; the embedding models that branch as the
distinguished error value `UErr.nameErr`.  The input `a\qb` reaches the
branch. -/
theorem C1_unsupported_escape_hits_undefined_name :
    unescape (some "a\\qb") = .error .nameErr := rfl

/-- Claim C2, counterexample: the scanner computes a `formatted` flag but
`unescape` returns only the joined string.  The two inputs below produce
equal decoder results although their scans end with different `formatted`
flags, so the flag is not part of the caller-visible result. -/
theorem C2_formatted_flag_dropped_cex :
    unescape (some "%d") = unescape (some "\\u0025d") ∧
    (unescapeScan "%d").map (fun r => r.2.formatted) = .ok true ∧
    (unescapeScan "\\u0025d").map (fun r => r.2.formatted) = .ok false :=
  ⟨rfl, rfl, rfl⟩

/-- Claim C2 (amended): the decoder result is the joined buffer only; the
`formatted` flag of the final scanner state is discarded by `unescape` and
never reaches the caller. -/
theorem C2_result_drops_formatted (t : String) :
    unescape (some t) = Except.map (fun r => some (joinBuf r.1)) (unescapeScan t) := by
  cases h : unescapeScan t with
  | error e => simp [unescape, h, Except.map]
  | ok r => simp [unescape, h, Except.map]

/-- Claim C3, counterexample: the string a-space-space-b contains none of
backslash, double quote, single quote, newline, tab and does not start with
an at sign, yet the round trip collapses the double space, so decode of
encode of the string differs from the string. -/
theorem C3_roundtrip_cex :
    (∀ c ∈ ("a  b" : String).toList,
      c ≠ '\\' ∧ c ≠ '"' ∧ c ≠ apos ∧ c ≠ '\n' ∧ c ≠ '\t') ∧
    ("a  b" : String).toList.head? ≠ some '@' ∧
    unescape (escape (some "a  b")) = .ok (some "a b") ∧
    ("a b" : String) ≠ "a  b" :=
  ⟨by decide, by decide, rfl, by decide⟩

/-- Claim C3 (amended): the round trip holds on the smaller domain that also
excludes the angle brackets (rewritten to entities by the preprocessing) and
strings with two consecutive spaces (collapsed by the scanner): there decode
after encode is the identity. -/
theorem C3_roundtrip_amended (s : String)
    (hch : ∀ c ∈ s.toList, c ≠ '\\' ∧ c ≠ '"' ∧ c ≠ apos ∧ c ≠ '\n' ∧ c ≠ '\t' ∧
      c ≠ '<' ∧ c ≠ '>')
    (hsp : noTwoSpaces s.toList = true)
    (hat : s.toList.head? ≠ some '@') :
    unescape (escape (some s)) = .ok (some s) := by
  rw [escape_noop s (fun c hc => ⟨(hch c hc).1, (hch c hc).2.1, (hch c hc).2.2.1,
    (hch c hc).2.2.2.1, (hch c hc).2.2.2.2.1⟩) hat]
  exact unescape_okChars s
    (preprocess_noop (fun c hc => ⟨(hch c hc).2.2.2.2.2.1, (hch c hc).2.2.2.2.2.2⟩))
    (okChars_of s.toList false
      (fun c hc => ⟨(hch c hc).1, (hch c hc).2.1, (hch c hc).2.2.2.1,
        (hch c hc).2.2.2.2.1⟩)
      hsp (fun h => (Bool.false_ne_true h).elim))

/-- Claim C3 (amended), witness at the concrete string a-space-b. -/
theorem C3_roundtrip_amended_witness :
    unescape (escape (some "a b")) = .ok (some "a b") :=
  C3_roundtrip_amended "a b" (by decide) (by decide) (by decide)

/-- Claim C4, counterexample: inside an active quote, before end-of-input, a
single tab is not passed through verbatim: a whitespace run of length one
that is a tab or a newline is normalized to a plain space even inside a
quoted span, so decode of quote-a-tab-b-quote is a-space-b. -/
theorem C4_single_tab_in_quotes_cex :
    unescape (some "\"a\tb\"") = .ok (some "a b") ∧ ("a b" : String) ≠ "a\tb" :=
  ⟨rfl, by decide⟩

/-- Claim C4 (amended): inside a quoted span, a whitespace run of length at
least two that is not immediately followed by end-of-input is passed through
verbatim (the structural quotes themselves are stripped); only a run of
exactly one tab or newline is normalized to a space. -/
theorem C4_quoted_run_verbatim (run : List Char)
    (hws : ∀ c ∈ run, WHITESPACE.contains c = true) (hk : 1 < run.length) :
    unescape (some (String.mk ('"' :: 'a' :: (run ++ ['b', '"'])))) =
      .ok (some (String.mk ('a' :: (run ++ ['b'])))) :=
  unescape_quoted_run run hws hk

/-- Claim C4 (amended), witness at the run tab-newline. -/
theorem C4_quoted_run_verbatim_witness :
    unescape (some (String.mk ('"' :: 'a' :: (['\t', '\n'] ++ ['b', '"'])))) =
      .ok (some (String.mk ('a' :: (['\t', '\n'] ++ ['b'])))) :=
  C4_quoted_run_verbatim ['\t', '\n'] (by decide) (by decide)

/-- Claim C5, counterexample: for the seven characters quote, a, space,
space, space, b the whitespace run does not immediately precede end-of-input,
so it is not collapsed inside the unterminated quote: the decoder returns
a-space-space-space-b, not a-space-b as the claim states. -/
theorem C5_unterminated_inner_cex :
    unescape (some "\"a   b") = .ok (some "a   b") ∧ ("a   b" : String) ≠ "a b" :=
  ⟨rfl, by decide⟩

/-- Claim C5 (amended): inside an unterminated quote only the whitespace run
immediately preceding end-of-input is collapsed to one space; a run followed
by further text is passed through verbatim. -/
theorem C5_unterminated_collapse (run : List Char)
    (hws : ∀ c ∈ run, WHITESPACE.contains c = true) (hk : 1 < run.length) :
    unescape (some (String.mk ('"' :: 'a' :: run))) = .ok (some "a ") ∧
    unescape (some (String.mk ('"' :: 'a' :: (run ++ ['b'])))) =
      .ok (some (String.mk ('a' :: (run ++ ['b'])))) :=
  ⟨unescape_unterminated_trailing run hws hk, unescape_unterminated_inner run hws hk⟩

/-- Claim C5 (amended), witness at the run of three spaces. -/
theorem C5_unterminated_collapse_witness :
    unescape (some (String.mk ('"' :: 'a' :: [' ', ' ', ' ']))) = .ok (some "a ") ∧
    unescape (some (String.mk ('"' :: 'a' :: ([' ', ' ', ' '] ++ ['b'])))) =
      .ok (some (String.mk ('a' :: ([' ', ' ', ' '] ++ ['b'])))) :=
  C5_unterminated_collapse [' ', ' ', ' '] (by decide) (by decide)

/-- Claim C6, counterexample: the source validates the captured characters
with `isalnum` followed by a base-16 `int` conversion, and a base-16 `int`
accepts an optional 0x prefix, so the escape backslash-u-0-x-4-1 (and the
truncated backslash-u-x-4-1, zero-padded to 0x41) decodes to A with no
error although the consumed characters are not all hexadecimal digits —
refuting the stated rule that the error is raised exactly when the consumed
digits are not all hexadecimal. -/
theorem C6_unicode_prefix_cex :
    unescape (some "\\u0x41") = .ok (some "A") ∧
    unescape (some "\\ux41") = .ok (some "A") ∧
    (['0', 'x', '4', '1'] : List Char).all isHexDig = false :=
  ⟨rfl, rfl, rfl⟩

/-- Claim C6 (amended): a backslash-u escape at end-of-input consumes the
remaining characters (up to four) and left-pads them with zeros to four; the
resulting four characters are resolved exactly as the source does with its
`isalnum` check followed by `int(codepoint_str, 16)` — an optional 0x or 0X
prefix followed by hexadecimal digits, modelled by `pyIntHex` — emitting the
denoted code point on success and raising the malformed-unicode error
otherwise.  With four characters available mid-string, exactly those four
are consumed and the code point is emitted in place.  The hypotheses keep
the statement on the domain where the model is faithful: the captured
characters are ASCII (the original would additionally map non-ASCII decimal
digits), and the resolved value is a Unicode scalar value (for a surrogate
value the original emits a lone UTF-16 surrogate, which no Lean string can
hold). -/
theorem C6_unicode_amended :
    (∀ ds : List Char, ds.length ≤ 4 →
      (∀ c ∈ ds, c.toNat < 128 ∧ c ≠ '<' ∧ c ≠ '>') →
      (pyIntHex (List.replicate (4 - ds.length) '0' ++ ds)).all
        (fun v => decide (Nat.isValidChar v)) = true →
      unescape (some (String.mk ('\\' :: 'u' :: ds))) =
        (match pyIntHex (List.replicate (4 - ds.length) '0' ++ ds) with
         | some v => .ok (some (String.mk [Char.ofNat v]))
         | none => .error .badUnicode)) ∧
    (∀ (a b c d : Char) (rest : List Char) (v : Nat),
      (∀ x ∈ ([a, b, c, d] ++ rest), x.toNat < 128 ∧ x ≠ '<' ∧ x ≠ '>') →
      okChars false rest = true →
      pyIntHex [a, b, c, d] = some v → Nat.isValidChar v →
      unescape (some (String.mk ('\\' :: 'u' :: (a :: b :: c :: d :: rest)))) =
        .ok (some (String.mk (Char.ofNat v :: rest)))) := by
  constructor
  · intro ds hlen hch hval
    cases hpy : pyIntHex (List.replicate (4 - ds.length) '0' ++ ds) with
    | some v => exact unescape_u_trunc_ok ds hlen (fun c hc => (hch c hc).2) v hpy
    | none => exact unescape_u_trunc_err ds hlen (fun c hc => (hch c hc).2) hpy
  · intro a b c d rest v hch hok hpy hval
    exact unescape_u_four_core a b c d rest (fun x hx => (hch x hx).2) hok v hpy

/-- Claim C6 (amended), witness: the truncated backslash-u-4-1 gives A, the
prefixed backslash-u-0-x-4-1 also gives A, and the full backslash-u-0-0-4-1
followed by x gives A-x. -/
theorem C6_unicode_amended_witness :
    unescape (some (String.mk ['\\', 'u', '4', '1'])) = .ok (some "A") ∧
    unescape (some (String.mk ['\\', 'u', '0', 'x', '4', '1'])) = .ok (some "A") ∧
    unescape (some (String.mk ['\\', 'u', '0', '0', '4', '1', 'x'])) =
      .ok (some (String.mk ['A', 'x'])) :=
  ⟨(C6_unicode_amended.1 ['4', '1'] (by decide) (by decide) (by decide)).trans rfl,
   (C6_unicode_amended.1 ['0', 'x', '4', '1'] (by decide) (by decide)
     (by decide)).trans rfl,
   C6_unicode_amended.2 '0' '0' '4' '1' ['x'] 65 (by decide) (by decide)
     (by decide) (by decide)⟩

/-- Claim C7: confirmed.  On a present string the encoder never fails and
returns exactly the ordered per-character substitution the claim describes
(backslash, newline, tab, single quote, double quote, then a backslash prefix
when the result starts with an at sign), stated through the independent
specification function `escapeSpec`. -/
theorem C7_escape_total_spec (s : String) :
    escape (some s) = some (escapeSpec s) := by
  simp only [escape, escapeSpec]
  rw [escape_chain]

/-- Claim C8: confirmed.  The absent value propagates with no error through
both operations. -/
theorem C8_absent_propagates :
    unescape none = .ok none ∧ escape none = none :=
  ⟨rfl, rfl⟩

/-- Claim C9: confirmed.  The scan terminates on every finite input: any fuel
at least the working-buffer length already computes the final result of the
canonical full run, and that buffer length is itself bounded linearly by the
input length (at most four entity characters per input character plus the
sentinel). -/
theorem C9_loop_terminates (t : String) (fuel : Nat)
    (h : (mkBuf t).length ≤ fuel) :
    loop fuel (mkBuf t) 0 initSt = unescapeScan t ∧
    (mkBuf t).length ≤ 4 * t.length + 1 :=
  ⟨unescapeScan_fuel t fuel h, mkBuf_len_le t⟩

/-- Claim C9, witness at the input a-space-b with fuel twenty. -/
theorem C9_loop_terminates_witness :
    loop 20 (mkBuf "a b") 0 initSt = unescapeScan "a b" ∧
    (mkBuf "a b").length ≤ 4 * ("a b" : String).length + 1 :=
  C9_loop_terminates "a b" 20 (by decide)

/-- Claim C10: confirmed.  The empty string is a fixed point of both
operations, the formatted flag of its scan is false, no error is raised, and
both results are present values, kept distinct from the absent one. -/
theorem C10_empty_fixed_point :
    unescape (some "") = .ok (some "") ∧
    (unescapeScan "").map (fun r => r.2.formatted) = .ok false ∧
    escape (some "") = some "" ∧ escape (some "") ≠ none :=
  ⟨rfl, rfl, rfl, by decide⟩

end ARes
